import Mathlib

/-!
Shallow embedding of `pymech/neksuite/field.py` (Nek5000 field-file codec):
the `Header` dataclass with its dual `vars`/`nb_vars` representation,
the 132-byte ASCII header encoder `Header.as_bytestring`, the header parser
`read_header`, the endianness probe, and the binary payload reader/writer
`readnek`/`writenek`.

Modelling conventions:
* Python byte strings and text are `List Char` (the header is pure ASCII);
  file contents are `List Nat` (one `Nat` per byte, each < 256).
* Python's unbounded `int` is `ℤ`; IEEE-754 doubles are modelled as the exact
  rational value they carry (`ℚ`), with explicit rounding functions at every
  point where the source rounds (float32 casts, float64 parsing).
* NaN and infinities are outside the modelled domain: the claims under
  consideration quantify over finite data, and decoders map non-finite bit
  patterns to a junk value (`0`) that no theorem relies on.
-/

namespace Pymech

/- Batteries marks the `Rat` field operations `@[irreducible]`, which blocks
`decide` on concrete rational computations; restore unfolding for them. -/
attribute [local semireducible] Rat.add Rat.mul Rat.inv Rat.sub
attribute [local semireducible] Rat.ofScientific

set_option maxRecDepth 100000

/-! ## Small numeric and character utilities -/

/-- Python `int(x)` on a real: truncation toward zero. -/
def truncQ (q : ℚ) : ℤ := if 0 ≤ q then ⌊q⌋ else ⌈q⌉

/-- Round to nearest integer, ties to even (IEEE default, used by numpy casts
and by CPython's correctly rounded float formatting). -/
def rndHalfEven (q : ℚ) : ℤ :=
  if q - (⌊q⌋ : ℚ) < 1/2 then ⌊q⌋
  else if 1/2 < q - (⌊q⌋ : ℚ) then ⌊q⌋ + 1
  else if 2 ∣ ⌊q⌋ then ⌊q⌋ else ⌊q⌋ + 1

/-- The ASCII digit for `n < 10`. -/
def digitChar (n : ℕ) : Char := Char.ofNat (48 + n)

/-- Decimal digits of a natural number, fuel-driven so that it reduces in the
kernel.  Correct whenever `n < fuel` (see `natCharsAux_spec`). -/
def natCharsAux : ℕ → ℕ → List Char
  | 0, _ => []
  | fuel + 1, n =>
    if n < 10 then [digitChar n]
    else natCharsAux fuel (n / 10) ++ [digitChar (n % 10)]

/-- Decimal digits of a natural number (Python `"%d" % n` for `n ≥ 0`). -/
def natChars (n : ℕ) : List Char := natCharsAux (n + 1) n

/-- Python `"%d" % z`: optional minus sign followed by decimal digits. -/
def intChars (z : ℤ) : List Char :=
  if z < 0 then '-' :: natChars z.natAbs else natChars z.natAbs

/-- Numeric value of a digit string (no validation). -/
def digitsValCore (l : List Char) : ℕ :=
  l.foldl (fun a c => 10 * a + (c.toNat - 48)) 0

/-- Parse a nonempty all-digit string as a natural number. -/
def digitsVal (l : List Char) : Option ℕ :=
  if l ≠ [] ∧ l.all Char.isDigit then some (digitsValCore l) else none

/-- Python `int(str)` restricted to an optional sign followed by digits
(tokens fed to it here never contain whitespace or underscores). -/
def pyIntParse : List Char → Option ℤ
  | '-' :: t => (digitsVal t).map (fun n => -(n : ℤ))
  | '+' :: t => (digitsVal t).map (fun n => (n : ℤ))
  | t => (digitsVal t).map (fun n => (n : ℤ))

/-- The characters Python `bytes.split()` treats as whitespace. -/
def isPyWS (c : Char) : Bool :=
  c = ' ' ∨ c = '\t' ∨ c = '\n' ∨ c = '\x0b' ∨ c = '\x0c' ∨ c = '\r'

/-- One step of the whitespace splitter: whitespace opens a new (empty)
group, any other character joins the current front group. -/
def wsStep (c : Char) (acc : List (List Char)) : List (List Char) :=
  if isPyWS c then [] :: acc
  else
    match acc with
    | [] => [[c]]
    | g :: gs => (c :: g) :: gs

/-- Groups of consecutive non-whitespace characters, possibly empty at
whitespace runs (helper for `pyTokens`). -/
def wsGroups (l : List Char) : List (List Char) :=
  l.foldr wsStep []

/-- Python `bytes.split()`: split on whitespace runs, dropping empty pieces. -/
def pyTokens (l : List Char) : List (List Char) :=
  (wsGroups l).filter (· ≠ [])

/-- `n` spaces. -/
def spaceChars (n : ℕ) : List Char := List.replicate n ' '

/-- Right-justify in a field of width `w` (Python `"%Ni" %`-style padding);
wider content is left untouched. -/
def padLeftW (w : ℕ) (l : List Char) : List Char :=
  spaceChars (w - l.length) ++ l

/-- Python `str.ljust(w)`: pad on the right with spaces up to width `w`. -/
def ljustW (w : ℕ) (l : List Char) : List Char :=
  l ++ spaceChars (w - l.length)

/-- Zero-pad on the left to width `w`. -/
def padZeros (w : ℕ) (l : List Char) : List Char :=
  List.replicate (w - l.length) '0' ++ l

/-- Floor logarithm of a positive natural in base `b ≥ 2`, fuel-driven so
that it reduces in the kernel; correct for `n < fuel` (`natLogBAux_spec`). -/
def natLogBAux (b : ℕ) : ℕ → ℕ → ℕ
  | 0, _ => 0
  | fuel + 1, n => if n < b then 0 else natLogBAux b fuel (n / b) + 1

/-- Floor logarithm in base `b` of a positive natural. -/
def natLogB (b n : ℕ) : ℕ := natLogBAux b (n + 1) n

/-- Floor logarithm in base `b` of the absolute value of a nonzero rational:
the unique `e` with `b^e ≤ |q| < b^(e+1)` (see `qLogB_spec`). -/
def qLogB (b : ℕ) (q : ℚ) : ℤ :=
  let a := natLogB b q.num.natAbs
  let c := natLogB b q.den
  if ((b : ℚ)) ^ ((a : ℤ) - c) ≤ |q| then a - c else a - c - 1

/-! ## IEEE-754 bit-level encoding

`struct.unpack`/`numpy` view of binary32/binary64 values.  `packFP` rounds to
nearest (ties to even) and packs into a bit pattern; `decFP` is the exact
value of a finite bit pattern.  Parameters: `prec` = significand bits
(24 or 53), `ebits` = exponent field width (8 or 11). -/

/-- Exact rational value of a finite IEEE bit pattern; `none` for the
all-ones exponent field (infinities and NaNs). -/
def decFPx (prec ebits : ℕ) (bits : ℕ) : Option ℚ :=
  let w := prec - 1
  let bias : ℤ := 2 ^ (ebits - 1) - 1
  let s := bits / 2 ^ (w + ebits) % 2
  let ef := bits / 2 ^ w % 2 ^ ebits
  let m := bits % 2 ^ w
  if ef = 2 ^ ebits - 1 then none
  else
    let mag : ℚ :=
      if ef = 0 then (m : ℚ) * (2 : ℚ) ^ (1 - bias - w)
      else ((2 ^ w + m : ℕ) : ℚ) * (2 : ℚ) ^ ((ef : ℤ) - bias - w)
    some (if s = 1 then -mag else mag)

/-- Value of a bit pattern, with non-finite patterns collapsed to `0`
(outside the modelled domain; no theorem below depends on that branch). -/
def decFP (prec ebits : ℕ) (bits : ℕ) : ℚ := (decFPx prec ebits bits).getD 0

/-- Round a rational to the nearest representable value of the format and
pack it as a bit pattern.  Overflow to infinity is outside the modelled
domain (the claims bound magnitudes). -/
def packFP (prec ebits : ℕ) (q : ℚ) : ℕ :=
  if q = 0 then 0
  else
    let w := prec - 1
    let bias : ℤ := 2 ^ (ebits - 1) - 1
    let emin : ℤ := 1 - bias
    let a := |q|
    let e := max (qLogB 2 a) emin
    let m := (rndHalfEven (a * (2 : ℚ) ^ ((w : ℤ) - e))).toNat
    let em := if m = 2 ^ (w + 1) then (e + 1, 2 ^ w) else (e, m)
    let sgn : ℕ := if q < 0 then 1 else 0
    if em.2 < 2 ^ w then sgn * 2 ^ (w + ebits) + em.2
    else sgn * 2 ^ (w + ebits) + (em.1 + bias).toNat * 2 ^ w + (em.2 - 2 ^ w)

/-- `numpy.float32` cast (`astype(np.float32)`) as a value map: round the
double to the nearest binary32 value. -/
def roundF32 (q : ℚ) : ℚ := decFP 24 8 (packFP 24 8 q)

/-- Rounding a real to the nearest binary64 value (Python `float(...)`). -/
def roundF64 (q : ℚ) : ℚ := decFP 53 11 (packFP 53 11 q)

/-- `q` is (the value of) a finite IEEE double: it survives pack/unpack. -/
def isF64 (q : ℚ) : Prop := roundF64 q = q

instance (q : ℚ) : Decidable (isF64 q) := by unfold isF64; infer_instance

/-- Little-endian byte list (least significant first) of a bit pattern. -/
def bytesLE : ℕ → ℕ → List ℕ
  | 0, _ => []
  | w + 1, n => n % 256 :: bytesLE w (n / 256)

/-- Bit pattern from a little-endian byte list. -/
def fromBytesLE : List ℕ → ℕ
  | [] => 0
  | b :: t => b + 256 * fromBytesLE t

/-- Byte order marker: `data.endian` restricted to the two values the codec
recognizes (anything else falls back to the platform's native order, which is
outside the modelled domain). -/
inductive ByteOrder | little | big
deriving DecidableEq

/-- Serialize a bit pattern of `w` bytes in a given byte order. -/
def encBytes (bo : ByteOrder) (w : ℕ) (bits : ℕ) : List ℕ :=
  match bo with
  | .little => bytesLE w bits
  | .big => (bytesLE w bits).reverse

/-- Read a bit pattern of `w` bytes in a given byte order. -/
def decBytesBO (bo : ByteOrder) (bs : List ℕ) : ℕ :=
  match bo with
  | .little => fromBytesLE bs
  | .big => fromBytesLE bs.reverse

/-! ## Scientific formatting: Python `"%20.13E"` -/

/-- Exponent suffix `E±dd` (at least two exponent digits, always signed). -/
def expChars (e : ℤ) : List Char :=
  (if e < 0 then ['-'] else ['+']) ++ padZeros 2 (natChars e.natAbs)

/-- Decimal exponent and 14-significant-digit mantissa of a nonzero rational:
`n ∈ [10^13, 10^14)` with `q ≈ ±n·10^(e-13)`, correctly rounded (CPython's
`%.13E` formats the exact binary value correctly rounded, ties to even). -/
def sciParts13 (q : ℚ) : ℤ × ℤ :=
  let e := qLogB 10 q
  let n := rndHalfEven (|q| * (10 : ℚ) ^ (13 - e))
  if n = 10 ^ 14 then (e + 1, 10 ^ 13) else (e, n)

/-- Python `"%.13E" % q` for a finite double `q`. -/
def formatE13 (q : ℚ) : List Char :=
  if q = 0 then '0' :: '.' :: List.replicate 13 '0' ++ ['E', '+', '0', '0']
  else
    let p := sciParts13 q
    (if q < 0 then ['-'] else []) ++
      natChars (p.2.toNat / 10 ^ 13) ++
      '.' :: padZeros 13 (natChars (p.2.toNat % 10 ^ 13)) ++
      'E' :: expChars p.1

/-- The unsigned mantissa of a Python float literal: decimal digits with an
optional single point (`none` if malformed). -/
def pyFloatMant (mant : List Char) : Option ℚ :=
  match mant.drop ((mant.takeWhile (· ≠ '.')).length) with
  | '.' :: f =>
    if mant.takeWhile (· ≠ '.') ++ f = [] then none
    else if (mant.takeWhile (· ≠ '.') ++ f).all Char.isDigit then
      some ((digitsValCore (mant.takeWhile (· ≠ '.') ++ f) : ℚ) /
        10 ^ f.length)
    else none
  | [] =>
    if mant.takeWhile (· ≠ '.') = [] then none
    else if (mant.takeWhile (· ≠ '.')).all Char.isDigit then
      some ((digitsValCore (mant.takeWhile (· ≠ '.')) : ℚ))
    else none
  | _ => none

/-- Unsigned mantissa with an optional `e`/`E` exponent part. -/
def pyFloatValCore (l : List Char) : Option ℚ :=
  match l.drop ((l.takeWhile (fun c => c ≠ 'e' ∧ c ≠ 'E')).length) with
  | [] => pyFloatMant l
  | _ :: et =>
    (pyFloatMant (l.takeWhile (fun c => c ≠ 'e' ∧ c ≠ 'E'))).bind fun base =>
      (pyIntParse et).map fun ex => base * (10 : ℚ) ^ ex

/-- Python `float(str)` on sign/digits/point/exponent strings: the exact
rational value of the literal (`none` if malformed), before binary64
rounding.  `inf`/`nan` literals and underscores never occur here. -/
def pyFloatVal : List Char → Option ℚ
  | '-' :: t => (pyFloatValCore t).map (fun q => -q)
  | '+' :: t => pyFloatValCore t
  | t => pyFloatValCore t

/-- Python `float(str)` including the binary64 rounding of the result. -/
def pyFloatParse (l : List Char) : Option ℚ := (pyFloatVal l).map roundF64

/-! ## The `Header` dataclass -/

/-- Variable counts `(geometry, velocity, pressure, temperature, scalars)`. -/
abbrev NbVars := ℤ × ℤ × ℤ × ℤ × ℤ

/-- `pymech.neksuite.field.Header` after `__post_init_post_parse__`:
both representations (`variables` string, `nb_vars` tuple) resolved, plus the
derived fields. -/
structure Header where
  wdsz : ℤ
  orders : ℤ × ℤ × ℤ
  nb_elems : ℤ
  nb_elems_file : ℤ
  time : ℚ
  istep : ℤ
  fid : ℤ
  nb_files : ℤ
  vars : List Char
  realtype : Option Char
  nb_pts_elem : ℤ
  nb_dims : ℤ
  nb_vars : Option NbVars
deriving DecidableEq

/-- `Header._variables_to_nb_vars`: derive the count tuple from the variable
string.  Returns `none` when the source logs an error and returns `None`
(empty string / zero `nb_dims`), or when `int(vars[index_s+1:])` would
raise. -/
def variables_to_nb_vars (vars : List Char) (nb_dims : ℤ) : Option NbVars :=
  if vars = [] then none
  else if nb_dims = 0 then none
  else
    let s? : Option ℤ :=
      if 'S' ∈ vars then pyIntParse ((vars.dropWhile (· ≠ 'S')).drop 1)
      else some 0
    match s? with
    | none => none
    | some s =>
      some (if 'X' ∈ vars then nb_dims else 0,
            if 'U' ∈ vars then nb_dims else 0,
            if 'P' ∈ vars then 1 else 0,
            if 'T' ∈ vars then 1 else 0,
            s)

/-- Python `f"{n:02d}"`. -/
def twoDigits (n : ℤ) : List Char :=
  if n < 0 then '-' :: padZeros 1 (natChars n.natAbs)
  else padZeros 2 (natChars n.natAbs)

/-- `Header._nb_vars_to_variables`: canonical variable string from the count
tuple — one letter per strictly positive entry, in fixed order `X U P T S`,
with a two-digit scalar count. -/
def nb_vars_to_variables (nv : NbVars) : List Char :=
  (if nv.1 > 0 then ['X'] else []) ++
  (if nv.2.1 > 0 then ['U'] else []) ++
  (if nv.2.2.1 > 0 then ['P'] else []) ++
  (if nv.2.2.2.1 > 0 then ['T'] else []) ++
  (if nv.2.2.2.2 > 0 then 'S' :: twoDigits nv.2.2.2.2 else [])

/-- `Header.__post_init_post_parse__`: fill the derived fields and resolve the
dual representation.  `Error` corresponds to the raised `ValidationError` when
both representations are absent (Python falsiness: `None` or the empty
string; a tuple is always truthy). -/
def mkHeader (wdsz : ℤ) (orders : ℤ × ℤ × ℤ) (nb_elems nb_elems_file : ℤ)
    (time : ℚ) (istep fid nb_files : ℤ)
    (vars : Option (List Char)) (nb_vars : Option NbVars) :
    Except Unit Header :=
  let realtype : Option Char := if wdsz = 4 then some 'f'
    else if wdsz = 8 then some 'd' else none
  let nb_pts_elem := orders.1 * orders.2.1 * orders.2.2
  let nb_dims : ℤ := 2 + (if orders.2.2 > 1 then 1 else 0)
  let base : List Char → Option NbVars → Header := fun v nv =>
    { wdsz := wdsz, orders := orders, nb_elems := nb_elems,
      nb_elems_file := nb_elems_file, time := time, istep := istep,
      fid := fid, nb_files := nb_files, vars := v, realtype := realtype,
      nb_pts_elem := nb_pts_elem, nb_dims := nb_dims, nb_vars := nv }
  match vars, nb_vars with
  | none, none => .error ()
  | some [], none => .error ()
  | some (c :: v), _ =>
    .ok (base (c :: v) (variables_to_nb_vars (c :: v) nb_dims))
  | some [], some nv => .ok (base (nb_vars_to_variables nv) (some nv))
  | none, some nv => .ok (base (nb_vars_to_variables nv) (some nv))

/-- `Header.as_bytestring` before the final `ljust`: the `"#std %1i %2i %2i
%2i %10i %10i %20.13E %9i %6i %6i %s"` rendering. -/
def headerChars (h : Header) : List Char :=
  '#' :: 's' :: 't' :: 'd' :: ' ' :: padLeftW 1 (intChars h.wdsz) ++
  ' ' :: padLeftW 2 (intChars h.orders.1) ++
  ' ' :: padLeftW 2 (intChars h.orders.2.1) ++
  ' ' :: padLeftW 2 (intChars h.orders.2.2) ++
  ' ' :: padLeftW 10 (intChars h.nb_elems) ++
  ' ' :: padLeftW 10 (intChars h.nb_elems_file) ++
  ' ' :: padLeftW 20 (formatE13 h.time) ++
  ' ' :: padLeftW 9 (intChars h.istep) ++
  ' ' :: padLeftW 6 (intChars h.fid) ++
  ' ' :: padLeftW 6 (intChars h.nb_files) ++
  ' ' :: h.vars

/-- `Header.as_bytestring`: the rendered header space-padded on the right to
(at least) 132 characters; `ljust` never truncates. -/
def headerBytes132 (h : Header) : List Char := ljustW 132 (headerChars h)

/-- Errors of the read path (`readnek` and its helpers). -/
inductive RErr
  /-- `read_header` raised `IOError("Header of the file was too short.")`. -/
  | shortHeader
  /-- pydantic `ValidationError` while coercing a header token. -/
  | headerParse
  /-- `struct.unpack` got fewer than 4 tag bytes. -/
  | etagShort
  /-- `int()` of a non-finite endian tag raised (NaN/infinity). -/
  | etagConv
  /-- neither interpretation matched: `readnek` returns `-3`. -/
  | unknownEndian
  /-- `struct.unpack` got fewer element-map bytes than declared. -/
  | elmapShort
  /-- `h.nb_vars` is `None`: attribute access raises. -/
  | badVars
  /-- `h.realtype` is `None` (word size neither 4 nor 8): dtype raises. -/
  | badRealtype
  /-- list index out of range on `data.elem[iel - 1]`. -/
  | indexError
  /-- `np.frombuffer` raised: buffer smaller than requested count. -/
  | truncatedPayload
deriving DecidableEq

/-- `read_header` on the (up to) 132 bytes read from the file: split into
whitespace-separated tokens, require at least 12, then build the `Header`
from tokens 1–11 (the marker token 0 is never inspected), with pydantic
coercing each numeric token. -/
def parseHeaderTokens (toks : List (List Char)) : Except RErr Header :=
  match toks with
  | _ :: t1 :: t2 :: t3 :: t4 :: t5 :: t6 :: t7 :: t8 :: t9 :: t10 :: t11 :: _ =>
    match pyIntParse t1, pyIntParse t2, pyIntParse t3, pyIntParse t4,
        pyIntParse t5, pyIntParse t6, pyFloatParse t7, pyIntParse t8,
        pyIntParse t9, pyIntParse t10 with
    | some wdsz, some o0, some o1, some o2, some ne, some nef, some time,
        some istep, some fid, some nbf =>
      (mkHeader wdsz (o0, o1, o2) ne nef time istep fid nbf
          (some t11) none).mapError (fun _ => RErr.headerParse)
    | _, _, _, _, _, _, _, _, _, _ => .error .headerParse
  | _ => .error .shortHeader

/-- `read_header` on a raw character string. -/
def readHeaderStr (l : List Char) : Except RErr Header :=
  parseHeaderTokens (pyTokens l)

/-! ## Endianness probe and claim C4

`readnek` reads 4 tag bytes, interprets them as a 32-bit float in both byte
orders, and compares `int(etag*1e5)/1e5` with `6.54321`, checking little
first.  In float64 arithmetic the product of a float32 value with `1e5` is
exact (24 + 17 < 53 significand bits), and `int(x)/1e5 == 6.54321` holds
exactly when the truncated integer equals `654321` (distinct integers over
`1e5` differ by `1e-5`, far above one ulp near 6.5), so the comparison is
modelled on the truncated integer.  `int()` of a NaN or infinity raises
(`etagConv`), before any comparison. -/

deriving instance DecidableEq for Except

/-- The endianness probe of `readnek` (the read path's lines 173–187):
`etagL` is truncated (raising on a non-finite value) before `etagB` is. -/
def detectEndian (b : List ℕ) : Except RErr ByteOrder :=
  match decFPx 24 8 (fromBytesLE b) with
  | none => .error .etagConv
  | some qL =>
    match decFPx 24 8 (fromBytesLE b.reverse) with
    | none => .error .etagConv
    | some qB =>
      if truncQ (qL * 100000) = 654321 then .ok .little
      else if truncQ (qB * 100000) = 654321 then .ok .big
      else .error .unknownEndian

/-- The endianness tag of `writenek`: `np.array([6.54321], dtype=np.float32)`
serialized in the requested byte order (native bytes, swapped when the
requested order differs from the platform's — net effect: bytes in the
requested order, platform-independently). -/
def emitEtag (bo : ByteOrder) : List ℕ :=
  encBytes bo 4 (packFP 24 8 (654321 / 100000))

/-- C3 counterexample: a `Header` whose element count has 61 decimal digits
encodes to 189 bytes, not 132 — `%10i` is only a minimum width and
`ljust(132)` never truncates. -/
def hBigElems : Header :=
  { wdsz := 8, orders := (2, 2, 2), nb_elems := 10 ^ 60, nb_elems_file := 1,
    time := 0, istep := 0, fid := 0, nb_files := 1, vars := ['X'],
    realtype := some 'd', nb_pts_elem := 8, nb_dims := 3,
    nb_vars := some (3, 3, 0, 0, 0) }

/-- Closed instance of `C3_width_invariant` at a small in-range header. -/
def hSmall : Header :=
  { wdsz := 4, orders := (6, 6, 1), nb_elems := 8, nb_elems_file := 8,
    time := 0, istep := 12, fid := 0, nb_files := 1,
    vars := ['X', 'U', 'P'], realtype := some 'f', nb_pts_elem := 36,
    nb_dims := 2, nb_vars := some (2, 2, 1, 0, 0) }

/-! ## The mesh container and the payload codec

`HexaData` and `Elem` live in `pymech.core`, outside the codec source; their
shape contract is modelled from the spec.  Per-component arrays of shape
`(lz, ly, lx)` are held as flat lists in C order — numpy's `reshape` and
`tofile` use the same C order, so flattening is faithful. -/

/-- One mesh element: per variable group, the list of per-component flattened
arrays. -/
structure Elem where
  pos : List (List ℚ)
  vel : List (List ℚ)
  pres : List (List ℚ)
  temp : List (List ℚ)
  scal : List (List ℚ)
deriving DecidableEq

/-- The five variable groups, in the fixed on-disk order. -/
inductive Grp | pos | vel | pres | temp | scal
deriving DecidableEq

def Elem.get (el : Elem) : Grp → List (List ℚ)
  | .pos => el.pos
  | .vel => el.vel
  | .pres => el.pres
  | .temp => el.temp
  | .scal => el.scal

/-- In-place update of component `i` of group `g`
(`data_var[index_var, ...] = ...`). -/
def Elem.setComp (el : Elem) (g : Grp) (i : ℕ) (arr : List ℚ) : Elem :=
  match g with
  | .pos => { el with pos := el.pos.set i arr }
  | .vel => { el with vel := el.vel.set i arr }
  | .pres => { el with pres := el.pres.set i arr }
  | .temp => { el with temp := el.temp.set i arr }
  | .scal => { el with scal := el.scal.set i arr }

def emptyElem : Elem := ⟨[], [], [], [], []⟩

/-- Modelled from the spec: the in-memory mesh container (`pymech.core
.HexaData`, not part of the codec source).  It owns, per element, one array
per field kind and component, plus the scalar metadata fields the codec
reads and writes. -/
structure HexaData where
  ndim : ℤ
  nel : ℕ
  lr1 : ℕ × ℕ × ℕ
  var : ℕ × ℕ × ℕ × ℕ × ℕ
  time : ℚ
  istep : ℤ
  wdsz : ℤ
  endian : ByteOrder
  elmap : List ℤ
  elem : List Elem
deriving DecidableEq

def HexaData.varCount (d : HexaData) : Grp → ℕ
  | .pos => d.var.1
  | .vel => d.var.2.1
  | .pres => d.var.2.2.1
  | .temp => d.var.2.2.2.1
  | .scal => d.var.2.2.2.2

def HexaData.npts (d : HexaData) : ℕ := d.lr1.1 * d.lr1.2.1 * d.lr1.2.2

def HexaData.setElemComp (d : HexaData) (idx : ℕ) (g : Grp) (i : ℕ)
    (arr : List ℚ) : HexaData :=
  { d with elem := d.elem.set idx ((d.elem.getD idx emptyElem).setComp g i arr) }

/-- Python list indexing: nonnegative in range, or negative from the end;
anything else raises `IndexError`. -/
def pyIdx (n : ℕ) (i : ℤ) : Option ℕ :=
  if 0 ≤ i ∧ i < (n : ℤ) then some i.toNat
  else if -(n : ℤ) ≤ i ∧ i < 0 then some ((n : ℤ) + i).toNat
  else none

/-- Per-group (element, component) pairs with the outer loop over elements in
element-map order (geometry, velocity, pressure, temperature). -/
def pairsElemOuter (elmap : List ℤ) (cnt : ℕ) : List (ℤ × ℕ) :=
  elmap.bind (fun iel => (List.range cnt).map (fun i => (iel, i)))

/-- Scalar-group pairs: outer loop over the component index, inner loop over
elements in element-map order — the reverse nesting (`NOTE: This is not a
bug!` in the source). -/
def pairsCompOuter (elmap : List ℤ) (cnt : ℕ) : List (ℤ × ℕ) :=
  (List.range cnt).bind (fun i => elmap.map (fun iel => (iel, i)))

def grpPairs (g : Grp) (elmap : List ℤ) (cnt : ℕ) : List (ℤ × ℕ) :=
  match g with
  | .scal => pairsCompOuter elmap cnt
  | _ => pairsElemOuter elmap cnt

/-- `write_ndarray_to_file` for one value: cast to the declared word size
(float32 narrowing when `wdsz == 4`) and emit in the declared byte order. -/
def encVal (wdsz : ℤ) (bo : ByteOrder) (v : ℚ) : List ℕ :=
  if wdsz = 4 then encBytes bo 4 (packFP 24 8 v)
  else encBytes bo 8 (packFP 53 11 v)

def encArr (wdsz : ℤ) (bo : ByteOrder) (arr : List ℚ) : List ℕ :=
  (arr.map (encVal wdsz bo)).join

/-- Signed 32-bit integer serialization (element map entries). -/
def encI32 (bo : ByteOrder) (z : ℤ) : List ℕ :=
  encBytes bo 4 (z % 2 ^ 32).toNat

def decI32 (bo : ByteOrder) (bs : List ℕ) : ℤ :=
  let n := decBytesBO bo bs
  if n < 2 ^ 31 then (n : ℤ) else (n : ℤ) - 2 ^ 32

/-- The written payload bytes for a list of (element, component) pairs of one
group, with the bytes produced so far even when a later element index raises
(`False` flags an `IndexError` on `data.elem[iel - 1]`). -/
def writePairs (d : HexaData) (g : Grp) : List (ℤ × ℕ) → List ℕ × Bool
  | [] => ([], true)
  | (iel, i) :: rest =>
    match pyIdx d.elem.length (iel - 1) with
    | none => ([], false)
    | some idx =>
      let b := encArr d.wdsz d.endian
        (((d.elem.getD idx emptyElem).get g).getD i [])
      let tb := writePairs d g rest
      (b ++ tb.1, tb.2)

/-- Sequence two staged writes: the second stage runs only when the first
succeeded; bytes accumulate. -/
def seqW (a : List ℕ × Bool) (f : Unit → List ℕ × Bool) : List ℕ × Bool :=
  if a.2 then
    let b := f ()
    (a.1 ++ b.1, b.2)
  else a

/-- The whole payload section, five groups in fixed order. -/
def payloadW (d : HexaData) : List ℕ × Bool :=
  seqW (writePairs d .pos (grpPairs .pos d.elmap (d.varCount .pos))) fun _ =>
  seqW (writePairs d .vel (grpPairs .vel d.elmap (d.varCount .vel))) fun _ =>
  seqW (writePairs d .pres (grpPairs .pres d.elmap (d.varCount .pres))) fun _ =>
  seqW (writePairs d .temp (grpPairs .temp d.elmap (d.varCount .temp))) fun _ =>
  writePairs d .scal (grpPairs .scal d.elmap (d.varCount .scal))

def qListMin : List ℚ → ℚ
  | [] => 0
  | h :: t => t.foldl min h

def qListMax : List ℚ → ℚ
  | [] => 0
  | h :: t => t.foldl max h

/-- The 3-D min/max trailer for one group: for each element in element-map
order and each component, the single-precision minimum then maximum.  (The
trailer nests element-outer for *all* groups, scalars included.) -/
def trailerPairs (d : HexaData) (g : Grp) : List (ℤ × ℕ) → List ℕ × Bool
  | [] => ([], true)
  | (iel, i) :: rest =>
    match pyIdx d.elem.length (iel - 1) with
    | none => ([], false)
    | some idx =>
      let arr := ((d.elem.getD idx emptyElem).get g).getD i []
      let b := encBytes d.endian 4 (packFP 24 8 (qListMin arr)) ++
        encBytes d.endian 4 (packFP 24 8 (qListMax arr))
      let tb := trailerPairs d g rest
      (b ++ tb.1, tb.2)

def trailerW (d : HexaData) : List ℕ × Bool :=
  seqW (trailerPairs d .pos (pairsElemOuter d.elmap (d.varCount .pos))) fun _ =>
  seqW (trailerPairs d .vel (pairsElemOuter d.elmap (d.varCount .vel))) fun _ =>
  seqW (trailerPairs d .pres (pairsElemOuter d.elmap (d.varCount .pres))) fun _ =>
  seqW (trailerPairs d .temp (pairsElemOuter d.elmap (d.varCount .temp))) fun _ =>
  trailerPairs d .scal (pairsElemOuter d.elmap (d.varCount .scal))

/-- Outcome of a `writenek` call: the Python return value (`none` when an
exception propagates instead), the final content of the destination file,
and whether the handle was closed. -/
structure WOut where
  ret : Option ℤ
  content : List ℕ
  closed : Bool
deriving DecidableEq

/-- `writenek`.  `open(fname, "wb")` truncates the destination (OS-level open
failures, the `return -1` path, are outside the model); the header is built
first, the word size is validated (`return -2` — with the file already
truncated and not closed), then header bytes, endian tag, element map,
payload and (3-D only) trailer are emitted and the file is closed. -/
def writenek (d : HexaData) : WOut :=
  match mkHeader d.wdsz ((d.lr1.1 : ℤ), (d.lr1.2.1 : ℤ), (d.lr1.2.2 : ℤ))
      (d.nel : ℤ) (d.nel : ℤ) d.time d.istep 0 1 none
      (some ((d.var.1 : ℤ), (d.var.2.1 : ℤ), (d.var.2.2.1 : ℤ),
        (d.var.2.2.2.1 : ℤ), (d.var.2.2.2.2 : ℤ))) with
  | .error _ => { ret := none, content := [], closed := false }
  | .ok h =>
    if d.wdsz = 4 ∨ d.wdsz = 8 then
      let headerB := (headerBytes132 h).map Char.toNat
      let etag := emitEtag d.endian
      let elmapB := (d.elmap.map (encI32 d.endian)).join
      let body :=
        seqW (payloadW d) fun _ =>
          if d.ndim = 3 then trailerW d else ([], true)
      if body.2 then
        { ret := some 0, content := headerB ++ etag ++ elmapB ++ body.1,
          closed := true }
      else
        { ret := none, content := headerB ++ etag ++ elmapB ++ body.1,
          closed := false }
    else { ret := some (-2), content := [], closed := false }

/-! ## The read path (`readnek`) -/

/-- Decode `n` consecutive values of `w` bytes each. -/
def decValsW (prec ebits w : ℕ) (bo : ByteOrder) : ℕ → List ℕ → List ℚ
  | 0, _ => []
  | n + 1, s =>
    decFP prec ebits (decBytesBO bo (s.take w)) ::
      decValsW prec ebits w bo n (s.drop w)

/-- `read_file_into_data`'s read of one array: `npts * wdsz` bytes decoded at
the declared word size (float32 values widen exactly into the float64
container).  A short buffer raises in `np.frombuffer`; a word size other
than 4 or 8 leaves `h.realtype` as `None` and raises at the dtype. -/
def readArr (wdsz : ℤ) (bo : ByteOrder) (npts : ℕ) (s : List ℕ) :
    Except RErr (List ℚ × List ℕ) :=
  if wdsz = 4 then
    if 4 * npts ≤ s.length then
      .ok (decValsW 24 8 4 bo npts s, s.drop (4 * npts))
    else .error .truncatedPayload
  else if wdsz = 8 then
    if 8 * npts ≤ s.length then
      .ok (decValsW 53 11 8 bo npts s, s.drop (8 * npts))
    else .error .truncatedPayload
  else .error .badRealtype

/-- Read the arrays for a list of (element, component) pairs of one group,
assigning each into the container slot `data.elem[iel - 1]` as it is read. -/
def readPairs (wdsz : ℤ) (bo : ByteOrder) (npts : ℕ) (g : Grp) :
    List (ℤ × ℕ) → HexaData → List ℕ → Except RErr (HexaData × List ℕ)
  | [], d, s => .ok (d, s)
  | (iel, i) :: rest, d, s =>
    match pyIdx d.elem.length (iel - 1) with
    | none => .error .indexError
    | some idx =>
      match readArr wdsz bo npts s with
      | .error e => .error e
      | .ok (arr, s') =>
        readPairs wdsz bo npts g rest (d.setElemComp idx g i arr) s'

/-- Decode `n` signed 32-bit integers (the element map). -/
def decI32s (bo : ByteOrder) : ℕ → List ℕ → List ℤ
  | 0, _ => []
  | n + 1, s => decI32 bo (s.take 4) :: decI32s bo n (s.drop 4)

/-- An all-zero element pre-sized from the header shape (modelled from the
spec: the `HexaData` constructor allocates one zero array per component per
field kind). -/
def zeroElem (nv : ℕ × ℕ × ℕ × ℕ × ℕ) (npts : ℕ) : Elem :=
  { pos := List.replicate nv.1 (List.replicate npts 0),
    vel := List.replicate nv.2.1 (List.replicate npts 0),
    pres := List.replicate nv.2.2.1 (List.replicate npts 0),
    temp := List.replicate nv.2.2.2.1 (List.replicate npts 0),
    scal := List.replicate nv.2.2.2.2 (List.replicate npts 0) }

/-- Outcome of a `readnek` call: the populated container or the error, and
whether the handle was closed before the call returned. -/
structure ROut where
  res : Except RErr HexaData
  closed : Bool

/-- `readnek`: read and decode the 132-byte header, probe the endianness
from the next 4 bytes, read the element map, build the container (shape from
the header), stream the five payload groups in order, close the file only
after all reads succeeded.  Every early `return` and every uncaught
exception leaves the handle open.  (In-range files carry nonnegative counts;
`Int.toNat` clamps model negatives, whose Python behavior — `read` to EOF,
`np.zeros` raising — is outside the modelled domain.) -/
def readnek (file : List ℕ) : ROut :=
  match readHeaderStr ((file.take 132).map Char.ofNat) with
  | .error e => { res := .error e, closed := false }
  | .ok h =>
    let rest0 := file.drop 132
    if rest0.length < 4 then { res := .error .etagShort, closed := false }
    else
      match detectEndian (rest0.take 4) with
      | .error e => { res := .error e, closed := false }
      | .ok bo =>
        let rest1 := rest0.drop 4
        let nef := h.nb_elems_file.toNat
        if rest1.length < 4 * nef then
          { res := .error .elmapShort, closed := false }
        else
          let elmap := decI32s bo nef (rest1.take (4 * nef))
          let rest2 := rest1.drop (4 * nef)
          match h.nb_vars with
          | none => { res := .error .badVars, closed := false }
          | some nv =>
            let nv' := (nv.1.toNat, nv.2.1.toNat, nv.2.2.1.toNat,
              nv.2.2.2.1.toNat, nv.2.2.2.2.toNat)
            let npts := h.nb_pts_elem.toNat
            let d0 : HexaData :=
              { ndim := h.nb_dims, nel := h.nb_elems.toNat,
                lr1 := (h.orders.1.toNat, h.orders.2.1.toNat,
                  h.orders.2.2.toNat),
                var := nv', time := h.time, istep := h.istep, wdsz := h.wdsz,
                endian := bo, elmap := elmap,
                elem := List.replicate h.nb_elems.toNat (zeroElem nv' npts) }
            match readPairs h.wdsz bo npts .pos
                (grpPairs .pos elmap nv'.1) d0 rest2 with
            | .error e => { res := .error e, closed := false }
            | .ok (d1, s1) =>
              match readPairs h.wdsz bo npts .vel
                  (grpPairs .vel elmap nv'.2.1) d1 s1 with
              | .error e => { res := .error e, closed := false }
              | .ok (d2, s2) =>
                match readPairs h.wdsz bo npts .pres
                    (grpPairs .pres elmap nv'.2.2.1) d2 s2 with
                | .error e => { res := .error e, closed := false }
                | .ok (d3, s3) =>
                  match readPairs h.wdsz bo npts .temp
                      (grpPairs .temp elmap nv'.2.2.2.1) d3 s3 with
                  | .error e => { res := .error e, closed := false }
                  | .ok (d4, s4) =>
                    match readPairs h.wdsz bo npts .scal
                        (grpPairs .scal elmap nv'.2.2.2.2) d4 s4 with
                    | .error e => { res := .error e, closed := false }
                    | .ok (d5, _) => { res := .ok d5, closed := true }

/-- Join width-padded fields, each preceded by one space (the shape of the
`"%1i %2i ..."` format string), ending in a raw tail. -/
def fieldsJoin : List (ℕ × List Char) → List Char → List Char
  | [], tl => tl
  | (w, t) :: fs, tl => ' ' :: padLeftW w t ++ fieldsJoin fs tl

/-- The exact rational value printed by `%.13E`: the sign times the
14-significant-digit correctly rounded decimal mantissa times the power of
ten. -/
def sciRound13 (q : ℚ) : ℚ :=
  if q = 0 then 0
  else (if q < 0 then -1 else 1) * (((sciParts13 q).2 : ℤ) : ℚ) *
    (10 : ℚ) ^ ((sciParts13 q).1 - 13)

/-! ## Lemmas: container slots and in-place updates -/

/-- The narrowing applied by one store/load cycle at the given word size. -/
def roundW (wdsz : ℤ) (v : ℚ) : ℚ :=
  if wdsz = 4 then roundF32 v else roundF64 v

/-- One per-component array slot of the container (safe defaults out of
range). -/
def slot (d : HexaData) (j : ℕ) (g : Grp) (i : ℕ) : List ℚ :=
  ((d.elem.getD j emptyElem).get g).getD i []

/-- Number of component arrays element `j` holds for group `g`. -/
def groupLen (d : HexaData) (j : ℕ) (g : Grp) : ℕ :=
  ((d.elem.getD j emptyElem).get g).length

/-- Apply the word-size narrowing to every array of an element. -/
def elemRound (wdsz : ℤ) (el : Elem) : Elem :=
  { pos := el.pos.map (List.map (roundW wdsz)),
    vel := el.vel.map (List.map (roundW wdsz)),
    pres := el.pres.map (List.map (roundW wdsz)),
    temp := el.temp.map (List.map (roundW wdsz)),
    scal := el.scal.map (List.map (roundW wdsz)) }

/-- Per-group count of a header-derived count tuple. -/
def nvCount (nv : ℕ × ℕ × ℕ × ℕ × ℕ) : Grp → ℕ
  | .pos => nv.1
  | .vel => nv.2.1
  | .pres => nv.2.2.1
  | .temp => nv.2.2.2.1
  | .scal => nv.2.2.2.2

/-- The (element, group, component) slots a pair list targets. -/
def covered (src : HexaData) (g : Grp) (P : List (ℤ × ℕ)) (j : ℕ) (g' : Grp)
    (i' : ℕ) : Prop :=
  g' = g ∧ ∃ iel, (iel, i') ∈ P ∧ pyIdx src.elem.length (iel - 1) = some j

/-- Shape contract of one element's arrays. -/
def elemWF (el : Elem) (nv : ℕ × ℕ × ℕ × ℕ × ℕ) (npts : ℕ) : Prop :=
  (el.pos.length = nv.1 ∧ ∀ a ∈ el.pos, a.length = npts) ∧
  (el.vel.length = nv.2.1 ∧ ∀ a ∈ el.vel, a.length = npts) ∧
  (el.pres.length = nv.2.2.1 ∧ ∀ a ∈ el.pres, a.length = npts) ∧
  (el.temp.length = nv.2.2.2.1 ∧ ∀ a ∈ el.temp, a.length = npts) ∧
  (el.scal.length = nv.2.2.2.2 ∧ ∀ a ∈ el.scal, a.length = npts)

instance (el : Elem) (nv : ℕ × ℕ × ℕ × ℕ × ℕ) (npts : ℕ) :
    Decidable (elemWF el nv npts) := by
  rw [elemWF]
  infer_instance

/-- All values of an element are exact binary64 values. -/
def elemF64 (el : Elem) : Prop :=
  (∀ a ∈ el.pos, ∀ v ∈ a, isF64 v) ∧ (∀ a ∈ el.vel, ∀ v ∈ a, isF64 v) ∧
  (∀ a ∈ el.pres, ∀ v ∈ a, isF64 v) ∧ (∀ a ∈ el.temp, ∀ v ∈ a, isF64 v) ∧
  (∀ a ∈ el.scal, ∀ v ∈ a, isF64 v)

instance (el : Elem) : Decidable (elemF64 el) := by
  rw [elemF64]
  infer_instance

/-- In-range mesh containers: the domain on which the writer emits a file the
reader accepts.  Every bound matches either a `%`-width of the header format,
the 32-bit element map encoding, or the shape contract of the container. -/
def WF (d : HexaData) : Prop :=
  (d.wdsz = 4 ∨ d.wdsz = 8) ∧
  (1 ≤ d.lr1.1 ∧ d.lr1.1 ≤ 99) ∧
  (1 ≤ d.lr1.2.1 ∧ d.lr1.2.1 ≤ 99) ∧
  (1 ≤ d.lr1.2.2 ∧ d.lr1.2.2 ≤ 99) ∧
  d.ndim = (if 1 < d.lr1.2.2 then 3 else 2) ∧
  d.nel < 2 ^ 31 ∧
  (-(10 ^ 8) < d.istep ∧ d.istep < 10 ^ 9) ∧
  (d.time = 0 ∨ (qLogB 10 d.time).natAbs ≤ 998) ∧
  ((d.var.1 : ℤ) = 0 ∨ (d.var.1 : ℤ) = d.ndim) ∧
  ((d.var.2.1 : ℤ) = 0 ∨ (d.var.2.1 : ℤ) = d.ndim) ∧
  d.var.2.2.1 ≤ 1 ∧ d.var.2.2.2.1 ≤ 1 ∧ d.var.2.2.2.2 ≤ 99 ∧
  ¬(d.var.1 = 0 ∧ d.var.2.1 = 0 ∧ d.var.2.2.1 = 0 ∧ d.var.2.2.2.1 = 0 ∧
    d.var.2.2.2.2 = 0) ∧
  d.elmap.length = d.nel ∧
  (∀ z ∈ d.elmap, 1 ≤ z ∧ z ≤ (d.nel : ℤ)) ∧
  (∀ j, j < d.nel → ((j : ℤ) + 1) ∈ d.elmap) ∧
  d.elem.length = d.nel ∧
  (∀ el ∈ d.elem, elemWF el d.var d.npts)

instance (d : HexaData) : Decidable (WF d) := by
  rw [WF]
  infer_instance

/-- The `Header` record the writer builds (the reduced form of its
`mkHeader` call). -/
def writerHeader (d : HexaData) : Header :=
  { wdsz := d.wdsz,
    orders := ((d.lr1.1 : ℤ), (d.lr1.2.1 : ℤ), (d.lr1.2.2 : ℤ)),
    nb_elems := (d.nel : ℤ), nb_elems_file := (d.nel : ℤ),
    time := d.time, istep := d.istep, fid := 0, nb_files := 1,
    vars := nb_vars_to_variables
      ((d.var.1 : ℤ), (d.var.2.1 : ℤ), (d.var.2.2.1 : ℤ),
        (d.var.2.2.2.1 : ℤ), (d.var.2.2.2.2 : ℤ)),
    realtype := if d.wdsz = 4 then some 'f'
      else if d.wdsz = 8 then some 'd' else none,
    nb_pts_elem := (d.lr1.1 : ℤ) * (d.lr1.2.1 : ℤ) * (d.lr1.2.2 : ℤ),
    nb_dims := 2 + (if (d.lr1.2.2 : ℤ) > 1 then 1 else 0),
    nb_vars := some ((d.var.1 : ℤ), (d.var.2.1 : ℤ), (d.var.2.2.1 : ℤ),
      (d.var.2.2.2.1 : ℤ), (d.var.2.2.2.2 : ℤ)) }

/-! ## Theorems for claim C1: the write/read round-trip -/

/-- A double-precision mesh whose time `1 + 2⁻⁵²` is an exact binary64 value
but has 17 significant decimal digits — more than `%20.13E` can carry. -/
def dCX : HexaData :=
  { ndim := 2, nel := 1, lr1 := (1, 1, 1), var := (0, 0, 0, 0, 1),
    time := 1 + 2 ^ (52 : ℕ) * (2 ^ (52 : ℕ) : ℚ)⁻¹ * (2 ^ (52 : ℕ) : ℚ)⁻¹,
    istep := 0, wdsz := 8, endian := .little, elmap := [1],
    elem := [⟨[], [], [], [], [[3]]⟩] }

/-- A small two-element single-scalar double-precision mesh with a permuted
element map, used to instantiate `C1_roundtrip`. -/
def dW : HexaData :=
  { ndim := 2, nel := 2, lr1 := (2, 1, 1), var := (0, 0, 0, 0, 1),
    time := 1 / 4, istep := 7, wdsz := 8, endian := .little, elmap := [2, 1],
    elem := [⟨[], [], [], [], [[1 / 2, 3 / 4]]⟩,
             ⟨[], [], [], [], [[5, 6]]⟩] }

/-- A two-element, two-scalar-component mesh (`elemA` first in the element
map). -/
def dC2 : HexaData :=
  { ndim := 2, nel := 2, lr1 := (1, 1, 1), var := (0, 0, 0, 0, 2),
    time := 1 / 4, istep := 0, wdsz := 8, endian := .little, elmap := [1, 2],
    elem := [⟨[], [], [], [], [[3], [5]]⟩, ⟨[], [], [], [], [[4], [6]]⟩] }

/-! ## Theorems for claim C6: the handle on error paths -/

/-- A header whose rendered form is followed by an unrecognizable endian
tag in `C6_counterexample`. -/
def hC6 : Header :=
  { wdsz := 4, orders := (6, 6, 1), nb_elems := 8, nb_elems_file := 8,
    time := 1 / 2, istep := 12, fid := 0, nb_files := 1,
    vars := ['X', 'U', 'P'], realtype := some 'f', nb_pts_elem := 36,
    nb_dims := 2, nb_vars := some (2, 2, 1, 0, 0) }

/-- A mesh with the unsupported word size 5. -/
def dBad : HexaData :=
  { ndim := 2, nel := 0, lr1 := (1, 1, 1), var := (0, 0, 0, 0, 1),
    time := 1 / 2, istep := 0, wdsz := 5, endian := .little, elmap := [],
    elem := [] }

/-! ## Theorems for claim C7: truncated payload -/

/-- A minimal well-formed mesh used for the end-to-end truncation test. -/
def dC7 : HexaData :=
  { ndim := 2, nel := 1, lr1 := (1, 1, 1), var := (0, 0, 0, 0, 1),
    time := 1 / 2, istep := 0, wdsz := 8, endian := .little, elmap := [1],
    elem := [⟨[], [], [], [], [[9]]⟩] }

/-! ## Theorems for claim C8: element-map entry 0 -/

/-- A header declaring two elements and one scalar. -/
def hC8 : Header :=
  { wdsz := 8, orders := (1, 1, 1), nb_elems := 2, nb_elems_file := 2,
    time := 1 / 2, istep := 0, fid := 0, nb_files := 1,
    vars := ['S', '0', '1'], realtype := some 'd', nb_pts_elem := 1,
    nb_dims := 2, nb_vars := some (0, 0, 0, 0, 1) }

/-- A file whose element map is `[0, 1]` — entry `0` does not belong to the
1-based element range. -/
def fileC8 : List ℕ :=
  (headerBytes132 hC8).map Char.toNat ++ emitEtag .little ++
    encI32 .little 0 ++ encI32 .little 1 ++
    encArr 8 .little [21] ++ encArr 8 .little [22]

/-- The container `readnek` returns for `fileC8`. -/
def dC8res : HexaData :=
  { ndim := 2, nel := 2, lr1 := (1, 1, 1), var := (0, 0, 0, 0, 1),
    time := 1 / 2, istep := 0, wdsz := 8, endian := .little, elmap := [0, 1],
    elem := [⟨[], [], [], [], [[22]]⟩, ⟨[], [], [], [], [[21]]⟩] }

/-! ## Theorems for claim C10: truncation before validation -/

/-- `writenek` called on a destination that currently holds `prev`:
`open(fname, "wb")` truncates the file to empty before anything else
happens, so the outcome never depends on `prev` (the model's `content` is
the file's content from that point on). -/
def writenekOnFile (_prev : List ℕ) (d : HexaData) : WOut := writenek d

/-! ## Lemmas: decimal digits -/

theorem digitChar_isDigit {n : ℕ} (h : n < 10) : (digitChar n).isDigit = true := by
  interval_cases n <;> decide

theorem digitChar_not_ws {n : ℕ} (h : n < 10) : isPyWS (digitChar n) = false := by
  interval_cases n <;> decide

theorem natCharsAux_spec (fuel : ℕ) :
    ∀ n, n < fuel →
      natCharsAux fuel n ≠ [] ∧
      (natCharsAux fuel n).all Char.isDigit = true ∧
      digitsValCore (natCharsAux fuel n) = n := by
  induction fuel with
  | zero => intro n h; omega
  | succ f ih =>
    intro n hn
    by_cases h10 : n < 10
    · refine ⟨by simp [natCharsAux, h10], ?_, ?_⟩
      · simp [natCharsAux, h10, digitChar_isDigit h10]
      · simp [natCharsAux, h10, digitsValCore, digitChar]
        interval_cases n <;> decide
    · have hdiv : n / 10 < f := by
        have := Nat.div_lt_self (by omega : 0 < n) (by norm_num : 1 < 10)
        omega
      obtain ⟨hne, hdig, hval⟩ := ih (n / 10) hdiv
      have hmod : n % 10 < 10 := Nat.mod_lt _ (by norm_num)
      refine ⟨by simp [natCharsAux, h10], ?_, ?_⟩
      · simp only [natCharsAux, if_neg h10, List.all_append, hdig,
          Bool.true_and, List.all_cons, List.all_nil, Bool.and_true]
        exact digitChar_isDigit hmod
      · simp only [natCharsAux, if_neg h10, digitsValCore, List.foldl_append]
        show 10 * digitsValCore (natCharsAux f (n / 10)) +
          ((digitChar (n % 10)).toNat - 48) = n
        have : (digitChar (n % 10)).toNat - 48 = n % 10 := by
          simp [digitChar]
          interval_cases h : n % 10 <;> simp_all
        rw [hval, this]
        omega

theorem natChars_ne_nil (n : ℕ) : natChars n ≠ [] :=
  (natCharsAux_spec (n + 1) n (by omega)).1

theorem natChars_all_digits (n : ℕ) : (natChars n).all Char.isDigit = true :=
  (natCharsAux_spec (n + 1) n (by omega)).2.1

theorem digitsValCore_natChars (n : ℕ) : digitsValCore (natChars n) = n :=
  (natCharsAux_spec (n + 1) n (by omega)).2.2

theorem digitsVal_natChars (n : ℕ) : digitsVal (natChars n) = some n := by
  simp [digitsVal, natChars_ne_nil, natChars_all_digits, digitsValCore_natChars]

theorem digitsValCore_zeros_prepend (k : ℕ) (l : List Char) :
    digitsValCore (List.replicate k '0' ++ l) = digitsValCore l := by
  induction k with
  | zero => simp
  | succ m ih =>
    have : List.replicate (m + 1) '0' ++ l = '0' :: (List.replicate m '0' ++ l) := by
      simp [List.replicate_succ]
    rw [this]
    show List.foldl _ ((10 : ℕ) * 0 + ('0'.toNat - 48)) _ = _
    simpa [digitsValCore] using ih

theorem digitsVal_padZeros (w : ℕ) (l : List Char) {v : ℕ}
    (h : digitsVal l = some v) :
    digitsVal (padZeros w l) = some v := by
  unfold digitsVal at h
  split at h
  case isTrue hc =>
    rw [Option.some_inj] at h
    have hall : (padZeros w l).all Char.isDigit = true := by
      simp only [padZeros, List.all_append, hc.2, Bool.and_true, List.all_eq_true]
      intro c hcmem
      rw [List.eq_of_mem_replicate hcmem]; decide
    have hne : padZeros w l ≠ [] := by
      intro hcon
      exact hc.1 (List.append_eq_nil.mp hcon).2
    unfold digitsVal
    rw [if_pos ⟨hne, hall⟩, Option.some_inj, padZeros,
      digitsValCore_zeros_prepend, h]
  case isFalse => exact absurd h (by simp)

theorem natChars_head_digit (n : ℕ) :
    ∀ c ∈ natChars n, c.isDigit = true := by
  intro c hc
  have := natChars_all_digits n
  rw [List.all_eq_true] at this
  exact this c hc

/-- A digit character is none of the specials used by the codec. -/
theorem digit_ne_specials {c : Char} (h : c.isDigit = true) :
    c ≠ '-' ∧ c ≠ '+' ∧ c ≠ 'S' ∧ c ≠ 'X' ∧ c ≠ 'U' ∧ c ≠ 'P' ∧ c ≠ 'T' ∧
      isPyWS c = false := by
  refine ⟨?_, ?_, ?_, ?_, ?_, ?_, ?_, ?_⟩
  case _ => intro hcon; subst hcon; exact absurd h (by decide)
  case _ => intro hcon; subst hcon; exact absurd h (by decide)
  case _ => intro hcon; subst hcon; exact absurd h (by decide)
  case _ => intro hcon; subst hcon; exact absurd h (by decide)
  case _ => intro hcon; subst hcon; exact absurd h (by decide)
  case _ => intro hcon; subst hcon; exact absurd h (by decide)
  case _ => intro hcon; subst hcon; exact absurd h (by decide)
  case _ =>
    by_contra hcon
    rw [Bool.not_eq_false] at hcon
    simp only [isPyWS, decide_eq_true_eq] at hcon
    rcases hcon with rfl | rfl | rfl | rfl | rfl | rfl <;>
      exact absurd h (by decide)

theorem pyIntParse_digits (l : List Char) (h : l.all Char.isDigit = true) :
    pyIntParse l = (digitsVal l).map (fun n => (n : ℤ)) := by
  match l with
  | [] => rfl
  | c :: t =>
    have hc : c.isDigit = true := by
      simp only [List.all_cons, Bool.and_eq_true] at h; exact h.1
    obtain ⟨h1, h2, -⟩ := digit_ne_specials hc
    rw [pyIntParse.eq_def]
    split
    · rename_i heq; rw [List.cons.injEq] at heq; exact absurd heq.1 h1
    · rename_i heq; rw [List.cons.injEq] at heq; exact absurd heq.1 h2
    · rfl

theorem pyIntParse_natChars (n : ℕ) : pyIntParse (natChars n) = some (n : ℤ) := by
  rw [pyIntParse_digits _ (natChars_all_digits n), digitsVal_natChars]
  rfl

theorem pyIntParse_intChars (z : ℤ) : pyIntParse (intChars z) = some z := by
  by_cases hz : z < 0
  · have hrw : intChars z = '-' :: natChars z.natAbs := by simp [intChars, hz]
    rw [hrw]
    show (digitsVal (natChars z.natAbs)).map (fun n => -(n : ℤ)) = some z
    rw [digitsVal_natChars]
    show some (-(z.natAbs : ℤ)) = some z
    rw [Option.some_inj]
    omega
  · have hrw : intChars z = natChars z.natAbs := by simp [intChars, hz]
    rw [hrw, pyIntParse_natChars]
    simp only [Option.some_inj]
    omega

/-! ## Lemmas: the whitespace tokenizer -/

theorem wsStep_nonws_nil {c : Char} (hc : isPyWS c = false) :
    wsStep c [] = [[c]] := by
  simp [wsStep, hc]

theorem wsStep_nonws_cons {c : Char} (hc : isPyWS c = false)
    (g : List Char) (gs : List (List Char)) :
    wsStep c (g :: gs) = (c :: g) :: gs := by
  simp [wsStep, hc]

theorem wsGroups_append (a b : List Char) :
    wsGroups (a ++ b) = a.foldr wsStep (wsGroups b) := by
  simp [wsGroups, List.foldr_append]

theorem foldr_nonws_into (t : List Char) (ht : ∀ c ∈ t, isPyWS c = false)
    (g : List Char) (gs : List (List Char)) :
    t.foldr wsStep (g :: gs) = (t ++ g) :: gs := by
  induction t with
  | nil => rfl
  | cons c t ih =>
    have hc : isPyWS c = false := ht c (by simp)
    have ht' : ∀ x ∈ t, isPyWS x = false := fun x hx => ht x (by simp [hx])
    rw [List.foldr_cons, ih ht', wsStep_nonws_cons hc, List.cons_append]

theorem wsGroups_ws_cons (c : Char) (l : List Char) (hc : isPyWS c = true) :
    wsGroups (c :: l) = [] :: wsGroups l := by
  simp [wsGroups, wsStep, hc]

theorem pyTokens_ws_cons (c : Char) (l : List Char) (hc : isPyWS c = true) :
    pyTokens (c :: l) = pyTokens l := by
  simp [pyTokens, wsGroups_ws_cons c l hc]

/-- A nonempty non-whitespace token followed by whitespace is split off as
the first token. -/
theorem pyTokens_token_ws (t : List Char) (c : Char) (l : List Char)
    (htne : t ≠ []) (ht : ∀ x ∈ t, isPyWS x = false) (hc : isPyWS c = true) :
    pyTokens (t ++ c :: l) = t :: pyTokens l := by
  have h1 : wsGroups (t ++ c :: l) = (t ++ []) :: wsGroups l := by
    rw [wsGroups_append, wsGroups_ws_cons c l hc, foldr_nonws_into t ht]
  rw [pyTokens, h1]
  simp only [List.append_nil, List.filter_cons]
  rw [if_pos (by simpa using htne)]
  rfl

theorem wsGroups_nonws_nil (t : List Char) (htne : t ≠ [])
    (ht : ∀ c ∈ t, isPyWS c = false) :
    wsGroups t = [t] := by
  induction t with
  | nil => exact absurd rfl htne
  | cons c t ih =>
    have hc : isPyWS c = false := ht c (by simp)
    show wsStep c (wsGroups t) = _
    rcases t with _ | ⟨d, t'⟩
    · rw [show wsGroups [] = [] from rfl, wsStep_nonws_nil hc]
    · rw [ih (by simp) (fun x hx => ht x (by simp [hx])), wsStep_nonws_cons hc]

/-- A nonempty non-whitespace token at the end of the string is the last
token. -/
theorem pyTokens_token_end (t : List Char) (htne : t ≠ [])
    (ht : ∀ x ∈ t, isPyWS x = false) :
    pyTokens t = [t] := by
  rw [pyTokens, wsGroups_nonws_nil t htne ht]
  simp [htne]

/-! ## Lemmas: field widths -/

theorem padLeftW_length_of_le {w : ℕ} {l : List Char} (h : l.length ≤ w) :
    (padLeftW w l).length = w := by
  simp [padLeftW, spaceChars]
  omega

theorem ljustW_length_of_le {w : ℕ} {l : List Char} (h : l.length ≤ w) :
    (ljustW w l).length = w := by
  simp [ljustW, spaceChars]
  omega

theorem natChars_length_le (n k : ℕ) (hn : n < 10 ^ k) (hk : 0 < k) :
    (natChars n).length ≤ k := by
  suffices h : ∀ fuel, ∀ n k, n < fuel → n < 10 ^ k → 0 < k →
      (natCharsAux fuel n).length ≤ k by
    exact h (n + 1) n k (by omega) hn hk
  intro fuel
  induction fuel with
  | zero => intro n k h; omega
  | succ f ih =>
    intro n k hfuel hnk hk
    by_cases h10 : n < 10
    · simp [natCharsAux, h10]
      omega
    · have hdiv : n / 10 < f := by
        have := Nat.div_lt_self (by omega : 0 < n) (by norm_num : 1 < 10)
        omega
      have hk2 : 2 ≤ k := by
        by_contra hcon
        interval_cases k
        all_goals omega
      have hquot : n / 10 < 10 ^ (k - 1) := by
        have h2 : 10 ^ k = 10 ^ (k - 1) * 10 := by
          rw [← pow_succ]
          congr 1
          omega
        omega
      simp only [natCharsAux, if_neg h10, List.length_append,
        List.length_cons, List.length_nil]
      have := ih (n / 10) (k - 1) hdiv hquot (by omega)
      omega

theorem intChars_length_le (z : ℤ) (k : ℕ) (hlo : -(10 ^ (k - 1)) < z)
    (hhi : z < 10 ^ k) (hk : 0 < k) : (intChars z).length ≤ k := by
  by_cases hz : z < 0
  · have h1 : (z.natAbs : ℤ) < 10 ^ (k - 1) := by omega
    have h1' : z.natAbs < 10 ^ (k - 1) := by exact_mod_cast h1
    by_cases hk1 : k = 1
    · subst hk1
      simp only [Nat.sub_self, pow_zero] at h1'
      omega
    · have := natChars_length_le z.natAbs (k - 1) h1' (by omega)
      simp only [intChars, if_pos hz, List.length_cons]
      omega
  · have h1 : (z.natAbs : ℤ) < 10 ^ k := by omega
    have h1' : z.natAbs < 10 ^ k := by exact_mod_cast h1
    have := natChars_length_le z.natAbs k h1' hk
    simp only [intChars, if_neg hz]
    exact this

/-- C4 counterexample: on the 4 bytes `FF FF FF FF` both interpretations are
NaN, so neither matches `6.54321`; yet the read does not fail with the
unknown-byte-order error (`return -3`) — `int()` of a NaN raises an uncaught
`ValueError` first. -/
theorem C4_counterexample :
    detectEndian [255, 255, 255, 255] = Except.error RErr.etagConv ∧
    detectEndian [255, 255, 255, 255] ≠ Except.error RErr.unknownEndian := by
  decide

/-- C4 (amended): bytes emitted for "little" are detected as little-endian
and bytes emitted for "big" as big-endian; and whenever both float32
interpretations of the tag are finite and neither truncates to `6.54321`,
the operation fails with the unknown-byte-order error.  (Non-finite
interpretations instead raise in the `int()` conversion.) -/
theorem C4_detect :
    detectEndian (emitEtag .little) = .ok .little ∧
    detectEndian (emitEtag .big) = .ok .big ∧
    (∀ (bs : List ℕ) (qL qB : ℚ),
      decFPx 24 8 (fromBytesLE bs) = some qL →
      decFPx 24 8 (fromBytesLE bs.reverse) = some qB →
      truncQ (qL * 100000) ≠ 654321 →
      truncQ (qB * 100000) ≠ 654321 →
      detectEndian bs = .error .unknownEndian) := by
  refine ⟨by decide, by decide, ?_⟩
  intro bs qL qB h1 h2 h3 h4
  unfold detectEndian
  rw [h1, h2]
  show (if truncQ (qL * 100000) = 654321
      then (Except.ok ByteOrder.little : Except RErr ByteOrder)
      else if truncQ (qB * 100000) = 654321 then Except.ok ByteOrder.big
      else Except.error RErr.unknownEndian) = Except.error RErr.unknownEndian
  rw [if_neg h3, if_neg h4]

/-- Closed instance of `C4_detect`: the all-zero tag decodes to `0.0` in both
orders, matches neither, and yields the unknown-byte-order error. -/
theorem C4_witness : detectEndian [0, 0, 0, 0] = .error .unknownEndian :=
  C4_detect.2.2 [0, 0, 0, 0] 0 0 (by decide) (by decide) (by decide)
    (by decide)

/-! ## Theorems for claim C9: the marker token is never inspected -/

theorem parseHeaderTokens_irrel (a b : List Char) (toks : List (List Char)) :
    parseHeaderTokens (a :: toks) = parseHeaderTokens (b :: toks) := by
  rcases toks with
    _ | ⟨t1, _ | ⟨t2, _ | ⟨t3, _ | ⟨t4, _ | ⟨t5, _ | ⟨t6, _ | ⟨t7,
      _ | ⟨t8, _ | ⟨t9, _ | ⟨t10, _ | ⟨t11, rest⟩⟩⟩⟩⟩⟩⟩⟩⟩⟩⟩ <;> rfl

/-- C9: header decoding never inspects the value of the marker token —
replacing the leading token of a header by any other whitespace-free token
leaves the decoded `Header` unchanged — even though encoding
(`Header.as_bytestring`) always emits the `#std` marker. -/
theorem C9_marker_never_inspected :
    (∀ (t t' rest : List Char), t ≠ [] → t' ≠ [] →
      (∀ c ∈ t, isPyWS c = false) → (∀ c ∈ t', isPyWS c = false) →
      12 ≤ (pyTokens (t ++ ' ' :: rest)).length →
      readHeaderStr (t ++ ' ' :: rest) = readHeaderStr (t' ++ ' ' :: rest)) ∧
    (∀ h : Header, (headerBytes132 h).take 4 = ['#', 's', 't', 'd']) := by
  constructor
  · intro t t' rest htne htne' ht ht' _
    rw [readHeaderStr, readHeaderStr,
      pyTokens_token_ws t ' ' rest htne ht (by decide),
      pyTokens_token_ws t' ' ' rest htne' ht' (by decide),
      parseHeaderTokens_irrel t t' (pyTokens rest)]
  · intro h
    rfl

/-- Closed instance of `C9_marker_never_inspected`: a concrete header body
with 12 tokens, marker `#std` replaced by `Q`. -/
theorem C9_witness :
    readHeaderStr (['#', 's', 't', 'd'] ++ ' ' ::
        ('8' :: ' ' :: '3' :: ' ' :: '3' :: ' ' :: '1' :: ' ' :: '2' :: ' ' ::
          '2' :: ' ' :: '1' :: '.' :: '5' :: 'E' :: '+' :: '0' :: '0' :: ' ' ::
          '7' :: ' ' :: '0' :: ' ' :: '1' :: ' ' :: 'X' :: 'U' :: [])) =
      readHeaderStr (['Q'] ++ ' ' ::
        ('8' :: ' ' :: '3' :: ' ' :: '3' :: ' ' :: '1' :: ' ' :: '2' :: ' ' ::
          '2' :: ' ' :: '1' :: '.' :: '5' :: 'E' :: '+' :: '0' :: '0' :: ' ' ::
          '7' :: ' ' :: '0' :: ' ' :: '1' :: ' ' :: 'X' :: 'U' :: [])) :=
  C9_marker_never_inspected.1 _ _ _ (by decide) (by decide) (by decide)
    (by decide) (by decide)

/-! ## Theorems for claim C5: tuple → string → tuple round-trip -/

theorem twoDigits_all_digits {s : ℤ} (hs : 0 ≤ s) :
    (twoDigits s).all Char.isDigit = true := by
  rw [twoDigits, if_neg (by omega)]
  simp only [padZeros, List.all_append, natChars_all_digits, Bool.and_true,
    List.all_eq_true]
  intro c hc
  rw [List.eq_of_mem_replicate hc]
  decide

theorem twoDigits_parse {s : ℤ} (hs : 0 ≤ s) :
    pyIntParse (twoDigits s) = some s := by
  rw [twoDigits, if_neg (by omega),
    pyIntParse_digits _ (by simpa [twoDigits, if_neg (by omega : ¬s < 0)]
      using twoDigits_all_digits hs),
    digitsVal_padZeros 2 _ (digitsVal_natChars s.natAbs)]
  show some ((s.natAbs : ℕ) : ℤ) = some s
  rw [Option.some_inj]
  omega

/-- C5 counterexample: the all-zero tuple is valid for the claim (all entries
in range), but its canonical variable string is empty, and re-deriving a
tuple from the empty string fails (`_variables_to_nb_vars` returns `None`)
instead of returning the original tuple. -/
theorem C5_counterexample :
    variables_to_nb_vars (nb_vars_to_variables ((0 : ℤ), 0, 0, 0, 0)) 2 ≠
      some ((0 : ℤ), 0, 0, 0, 0) := by
  decide

/-- Shared round-trip core: a valid count tuple with a nonzero entry survives
the string rendering and re-derivation. -/
theorem nb_vars_roundtrip (d g v p t s : ℤ)
    (hd : d = 2 ∨ d = 3) (hg : g = 0 ∨ g = d) (hv : v = 0 ∨ v = d)
    (hp : p = 0 ∨ p = 1) (ht : t = 0 ∨ t = 1) (hs0 : 0 ≤ s) (hs99 : s ≤ 99)
    (hnz : ¬(g = 0 ∧ v = 0 ∧ p = 0 ∧ t = 0 ∧ s = 0)) :
    variables_to_nb_vars (nb_vars_to_variables (g, v, p, t, s)) d =
      some (g, v, p, t, s) := by
  have hd0 : (0 : ℤ) < d := by rcases hd with rfl | rfl <;> norm_num
  have hdig : ∀ c ∈ twoDigits s, c.isDigit = true := by
    intro c hc
    have h := twoDigits_all_digits hs0
    rw [List.all_eq_true] at h
    exact h c hc
  have hX : 'X' ∉ twoDigits s := fun hc =>
    (digit_ne_specials (hdig _ hc)).2.2.2.1 rfl
  have hU : 'U' ∉ twoDigits s := fun hc =>
    (digit_ne_specials (hdig _ hc)).2.2.2.2.1 rfl
  have hP : 'P' ∉ twoDigits s := fun hc =>
    (digit_ne_specials (hdig _ hc)).2.2.2.2.2.1 rfl
  have hT : 'T' ∉ twoDigits s := fun hc =>
    (digit_ne_specials (hdig _ hc)).2.2.2.2.2.2.1 rfl
  rcases eq_or_lt_of_le hs0 with rfl | hsz <;>
    rcases hg with rfl | rfl <;> rcases hv with rfl | rfl <;>
    rcases hp with rfl | rfl <;> rcases ht with rfl | rfl <;>
      first
      | (exfalso; omega)
      | simp [nb_vars_to_variables, variables_to_nb_vars, hd0, hd0.ne',
          hX, hU, hP, hT, twoDigits_parse hs0, *]

/-- C5 (amended): for every valid variable 5-tuple with at least one nonzero
entry — geometry/velocity in `{0, nb_dims}`, pressure/temperature in `{0,1}`,
scalar count in `[0, 99]` — deriving the canonical variable string and
re-deriving the tuple from it returns the original tuple. -/
theorem C5_roundtrip_nonzero (d g v p t s : ℤ)
    (hd : d = 2 ∨ d = 3) (hg : g = 0 ∨ g = d) (hv : v = 0 ∨ v = d)
    (hp : p = 0 ∨ p = 1) (ht : t = 0 ∨ t = 1) (hs0 : 0 ≤ s) (hs99 : s ≤ 99)
    (hnz : ¬(g = 0 ∧ v = 0 ∧ p = 0 ∧ t = 0 ∧ s = 0)) :
    variables_to_nb_vars (nb_vars_to_variables (g, v, p, t, s)) d =
      some (g, v, p, t, s) :=
  nb_vars_roundtrip d g v p t s hd hg hv hp ht hs0 hs99 hnz

/-- Closed instance of `C5_roundtrip_nonzero` at the tuple `(3,3,1,0,5)` with
three spatial dimensions. -/
theorem C5_witness :
    variables_to_nb_vars (nb_vars_to_variables ((3 : ℤ), 3, 1, 0, 5)) 3 =
      some ((3 : ℤ), 3, 1, 0, 5) :=
  C5_roundtrip_nonzero 3 3 3 1 0 5 (by decide) (by decide) (by decide)
    (by decide) (by decide) (by decide) (by decide) (by decide)

/-! ## Lemmas: the fuel-based floor logarithm -/

theorem natLogBAux_spec (b : ℕ) (hb : 2 ≤ b) :
    ∀ fuel n, n < fuel → 1 ≤ n →
      b ^ natLogBAux b fuel n ≤ n ∧ n < b ^ (natLogBAux b fuel n + 1) := by
  intro fuel
  induction fuel with
  | zero => intro n h; omega
  | succ f ih =>
    intro n hfuel hn1
    by_cases hnb : n < b
    · rw [natLogBAux, if_pos hnb]
      simp only [pow_zero, zero_add, pow_one]
      omega
    · have hq1 : 1 ≤ n / b := (Nat.one_le_div_iff (by omega)).mpr (by omega)
      have hqf : n / b < f := by
        have := Nat.div_lt_self (by omega : 0 < n) (by omega : 1 < b)
        omega
      obtain ⟨ih1, ih2⟩ := ih (n / b) hqf hq1
      rw [natLogBAux, if_neg hnb]
      constructor
      · calc b ^ (natLogBAux b f (n / b) + 1)
            = b ^ natLogBAux b f (n / b) * b := by rw [pow_succ]
          _ ≤ n / b * b := Nat.mul_le_mul_right b ih1
          _ ≤ n := Nat.div_mul_le_self n b
      · have hmod := Nat.div_add_mod n b
        have hltb : n % b < b := Nat.mod_lt _ (by omega)
        calc n < b * (n / b) + b := by omega
          _ = b * (n / b + 1) := by ring
          _ ≤ b * b ^ (natLogBAux b f (n / b) + 1) :=
            Nat.mul_le_mul_left b (by omega)
          _ = b ^ (natLogBAux b f (n / b) + 1 + 1) := by ring

theorem natLogB_spec (b n : ℕ) (hb : 2 ≤ b) (hn : 1 ≤ n) :
    b ^ natLogB b n ≤ n ∧ n < b ^ (natLogB b n + 1) :=
  natLogBAux_spec b hb (n + 1) n (by omega) hn

theorem qLogB_spec (b : ℕ) (hb : 2 ≤ b) (q : ℚ) (hq : q ≠ 0) :
    ((b : ℚ)) ^ qLogB b q ≤ |q| ∧ |q| < ((b : ℚ)) ^ (qLogB b q + 1) := by
  have hb0 : ((b : ℚ)) ≠ 0 := by positivity
  have hbpos : (0 : ℚ) < (b : ℚ) := by positivity
  have hnum : 1 ≤ q.num.natAbs := by
    have := Rat.num_ne_zero.mpr hq
    omega
  obtain ⟨ha1, ha2⟩ := natLogB_spec b q.num.natAbs hb hnum
  obtain ⟨hc1, hc2⟩ := natLogB_spec b q.den hb q.den_pos
  set a := natLogB b q.num.natAbs with hadef
  set c := natLogB b q.den with hcdef
  have habs : |q| = ((q.num.natAbs : ℚ)) / ((q.den : ℚ)) := by
    conv_lhs => rw [← Rat.num_div_den q]
    rw [abs_div,
      abs_of_pos (show (0 : ℚ) < ((q.den : ℚ)) by exact_mod_cast q.den_pos),
      Int.cast_natAbs, Int.cast_abs]
  have hN0 : (0 : ℚ) < (q.num.natAbs : ℚ) := by exact_mod_cast hnum
  have hD0 : (0 : ℚ) < (q.den : ℚ) := by exact_mod_cast q.den_pos
  have hA1 : ((b : ℚ)) ^ (a : ℕ) ≤ (q.num.natAbs : ℚ) := by exact_mod_cast ha1
  have hA2 : (q.num.natAbs : ℚ) < ((b : ℚ)) ^ (a + 1 : ℕ) := by exact_mod_cast ha2
  have hC1 : ((b : ℚ)) ^ (c : ℕ) ≤ (q.den : ℚ) := by exact_mod_cast hc1
  have hC2 : (q.den : ℚ) < ((b : ℚ)) ^ (c + 1 : ℕ) := by exact_mod_cast hc2
  have hlow : ((b : ℚ)) ^ ((a : ℤ) - c - 1) < |q| := by
    rw [habs, show ((a : ℤ) - c - 1) = (a : ℤ) - ((c : ℤ) + 1) by ring,
      zpow_sub₀ hb0, div_lt_div_iff (by positivity) hD0]
    calc ((b : ℚ)) ^ ((a : ℤ)) * (q.den : ℚ)
        = ((b : ℚ)) ^ (a : ℕ) * (q.den : ℚ) := by rw [zpow_natCast]
      _ < (q.num.natAbs : ℚ) * ((b : ℚ)) ^ (c + 1 : ℕ) :=
        mul_lt_mul' hA1 hC2 (le_of_lt hD0) hN0
      _ = (q.num.natAbs : ℚ) * ((b : ℚ)) ^ (((c : ℤ)) + 1) := by
        rw [← zpow_natCast (b : ℚ) (c + 1)]
        push_cast
        ring_nf
  have hup : |q| < ((b : ℚ)) ^ ((a : ℤ) - c + 1) := by
    rw [habs, show ((a : ℤ) - c + 1) = ((a : ℤ) + 1) - c by ring,
      zpow_sub₀ hb0, div_lt_div_iff hD0 (by positivity)]
    calc (q.num.natAbs : ℚ) * ((b : ℚ)) ^ ((c : ℤ))
        = (q.num.natAbs : ℚ) * ((b : ℚ)) ^ (c : ℕ) := by rw [zpow_natCast]
      _ < ((b : ℚ)) ^ (a + 1 : ℕ) * (q.den : ℚ) :=
        mul_lt_mul hA2 hC1 (by positivity) (by positivity)
      _ = ((b : ℚ)) ^ ((a : ℤ) + 1) * (q.den : ℚ) := by
        congr 1
        rw [← zpow_natCast (b : ℚ) (a + 1)]
        norm_cast
  have hqdef : qLogB b q =
      if ((b : ℚ)) ^ ((a : ℤ) - c) ≤ |q| then (a : ℤ) - c
      else (a : ℤ) - c - 1 := rfl
  rw [hqdef]
  split_ifs with hcond
  · exact ⟨hcond, hup⟩
  · push_neg at hcond
    refine ⟨le_of_lt hlow, ?_⟩
    rw [show (a : ℤ) - c - 1 + 1 = (a : ℤ) - c by ring]
    exact hcond

/-! ## Theorems for claim C3: header width invariant -/

theorem rndHalfEven_cases (q : ℚ) :
    rndHalfEven q = ⌊q⌋ ∨ rndHalfEven q = ⌊q⌋ + 1 := by
  rw [rndHalfEven]
  split_ifs <;> simp

theorem le_rndHalfEven {A : ℤ} {q : ℚ} (h : (A : ℚ) ≤ q) :
    A ≤ rndHalfEven q := by
  have h1 : A ≤ ⌊q⌋ := Int.le_floor.mpr h
  rcases rndHalfEven_cases q with h2 | h2 <;> omega

theorem rndHalfEven_le {B : ℤ} {q : ℚ} (h : q < B) :
    rndHalfEven q ≤ B := by
  have h1 : ⌊q⌋ < B := Int.floor_lt.mpr h
  rcases rndHalfEven_cases q with h2 | h2 <;> omega

theorem sciParts13_mantissa_bounds (q : ℚ) (hq : q ≠ 0) :
    10 ^ 13 ≤ (sciParts13 q).2 ∧ (sciParts13 q).2 < 10 ^ 14 := by
  have ha : 0 < |q| := abs_pos.mpr hq
  set e0 := qLogB 10 q with he0
  have hlohi := qLogB_spec 10 (by norm_num) q hq
  rw [← he0] at hlohi
  obtain ⟨hlo, hhi⟩ := hlohi
  have hp : (0 : ℚ) < (10 : ℚ) ^ ((13 : ℤ) - e0) := zpow_pos (by norm_num) _
  have hprod_lo : ((10 ^ 13 : ℤ) : ℚ) ≤ |q| * (10 : ℚ) ^ ((13 : ℤ) - e0) := by
    have h1 : (10 : ℚ) ^ e0 * (10 : ℚ) ^ ((13 : ℤ) - e0) ≤
        |q| * (10 : ℚ) ^ ((13 : ℤ) - e0) :=
      mul_le_mul_of_nonneg_right hlo (le_of_lt hp)
    calc ((10 ^ 13 : ℤ) : ℚ) = (10 : ℚ) ^ ((13 : ℤ)) := by norm_num
    _ = (10 : ℚ) ^ e0 * (10 : ℚ) ^ ((13 : ℤ) - e0) := by
        rw [← zpow_add₀ (by norm_num : (10 : ℚ) ≠ 0)]
        congr 1
        ring
    _ ≤ _ := h1
  have hprod_hi : |q| * (10 : ℚ) ^ ((13 : ℤ) - e0) < ((10 ^ 14 : ℤ) : ℚ) := by
    have h1 : |q| * (10 : ℚ) ^ ((13 : ℤ) - e0) <
        (10 : ℚ) ^ (e0 + 1) * (10 : ℚ) ^ ((13 : ℤ) - e0) :=
      mul_lt_mul_of_pos_right hhi hp
    calc |q| * (10 : ℚ) ^ ((13 : ℤ) - e0) < _ := h1
    _ = (10 : ℚ) ^ ((14 : ℤ)) := by
        rw [← zpow_add₀ (by norm_num : (10 : ℚ) ≠ 0)]
        congr 1
        ring
    _ = ((10 ^ 14 : ℤ) : ℚ) := by norm_num
  have hn_lo : (10 ^ 13 : ℤ) ≤ rndHalfEven (|q| * (10 : ℚ) ^ ((13 : ℤ) - e0)) :=
    le_rndHalfEven hprod_lo
  have hn_hi : rndHalfEven (|q| * (10 : ℚ) ^ ((13 : ℤ) - e0)) ≤ (10 ^ 14 : ℤ) :=
    rndHalfEven_le hprod_hi
  rw [sciParts13]
  split_ifs with hc
  · constructor <;> norm_num
  · rw [← he0] at hc ⊢
    exact ⟨hn_lo, lt_of_le_of_ne hn_hi hc⟩

theorem sciParts13_exp_cases (q : ℚ) :
    (sciParts13 q).1 = qLogB 10 q ∨
      (sciParts13 q).1 = qLogB 10 q + 1 := by
  rw [sciParts13]
  split_ifs <;> simp

theorem padZeros_length {w : ℕ} {l : List Char} (h : l.length ≤ w) :
    (padZeros w l).length = w := by
  simp [padZeros]
  omega

theorem expChars_length_le {e : ℤ} (h : e.natAbs ≤ 999) :
    (expChars e).length ≤ 4 := by
  have h1 : e.natAbs < 10 ^ 3 := by omega
  have h2 : (natChars e.natAbs).length ≤ 3 :=
    natChars_length_le _ 3 h1 (by norm_num)
  rw [expChars]
  split_ifs <;> simp [padZeros] <;> omega

theorem formatE13_length_le (q : ℚ)
    (hq : q = 0 ∨ (qLogB 10 q).natAbs ≤ 998) :
    (formatE13 q).length ≤ 21 := by
  rcases eq_or_ne q 0 with rfl | hq0
  · decide
  · rcases hq with rfl | hlog
    · exact absurd rfl hq0
    · obtain ⟨hm_lo, hm_hi⟩ := sciParts13_mantissa_bounds q hq0
      have he : (sciParts13 q).1.natAbs ≤ 999 := by
        rcases sciParts13_exp_cases q with h | h <;> rw [h] <;> omega
      have hlead : (natChars ((sciParts13 q).2.toNat / 10 ^ 13)).length ≤ 1 := by
        apply natChars_length_le _ 1 _ (by norm_num)
        have : (sciParts13 q).2.toNat < 10 ^ 14 := by omega
        omega
      have hfrac : (padZeros 13 (natChars ((sciParts13 q).2.toNat % 10 ^ 13))).length
          = 13 := by
        apply padZeros_length
        apply natChars_length_le _ 13 _ (by norm_num)
        have : (10 : ℕ) ^ 13 > 0 := by norm_num
        omega
      have hexp : (expChars (sciParts13 q).1).length ≤ 4 := expChars_length_le he
      rw [formatE13, if_neg hq0]
      split_ifs <;>
        simp only [List.length_append, List.length_cons, List.length_nil,
          hfrac] <;>
        omega

set_option maxRecDepth 40000 in
/-- C3 counterexample: the header `hBigElems`, whose element count has 61
decimal digits, encodes to 189 bytes, not 132 — `%10i` is only a minimum
width and `ljust(132)` never truncates. -/
theorem C3_counterexample : (headerBytes132 hBigElems).length ≠ 132 := by
  decide

/-- Shared width bound: the rendered header is exactly 132 characters when
every field fits its `%`-width. -/
theorem headerBytes132_length (h : Header)
    (h1 : 0 ≤ h.wdsz ∧ h.wdsz ≤ 9)
    (h2 : -10 < h.orders.1 ∧ h.orders.1 < 100)
    (h3 : -10 < h.orders.2.1 ∧ h.orders.2.1 < 100)
    (h4 : -10 < h.orders.2.2 ∧ h.orders.2.2 < 100)
    (h5 : -(10 ^ 9) < h.nb_elems ∧ h.nb_elems < 10 ^ 10)
    (h6 : -(10 ^ 9) < h.nb_elems_file ∧ h.nb_elems_file < 10 ^ 10)
    (h7 : h.time = 0 ∨ (qLogB 10 h.time).natAbs ≤ 998)
    (h8 : -(10 ^ 8) < h.istep ∧ h.istep < 10 ^ 9)
    (h9 : -(10 ^ 5) < h.fid ∧ h.fid < 10 ^ 6)
    (h10 : -(10 ^ 5) < h.nb_files ∧ h.nb_files < 10 ^ 6)
    (h11 : h.vars.length ≤ 48) :
    (headerBytes132 h).length = 132 := by
  have l1 : (intChars h.wdsz).length ≤ 1 :=
    intChars_length_le _ 1 (by omega) (by omega) one_pos
  have l2 : (intChars h.orders.1).length ≤ 2 :=
    intChars_length_le _ 2 (by omega) (by omega) (by norm_num)
  have l3 : (intChars h.orders.2.1).length ≤ 2 :=
    intChars_length_le _ 2 (by omega) (by omega) (by norm_num)
  have l4 : (intChars h.orders.2.2).length ≤ 2 :=
    intChars_length_le _ 2 (by omega) (by omega) (by norm_num)
  have l5 : (intChars h.nb_elems).length ≤ 10 :=
    intChars_length_le _ 10 (by omega) (by omega) (by norm_num)
  have l6 : (intChars h.nb_elems_file).length ≤ 10 :=
    intChars_length_le _ 10 (by omega) (by omega) (by norm_num)
  have l7 : (formatE13 h.time).length ≤ 21 := formatE13_length_le _ h7
  have l8 : (intChars h.istep).length ≤ 9 :=
    intChars_length_le _ 9 (by omega) (by omega) (by norm_num)
  have l9 : (intChars h.fid).length ≤ 6 :=
    intChars_length_le _ 6 (by omega) (by omega) (by norm_num)
  have l10 : (intChars h.nb_files).length ≤ 6 :=
    intChars_length_le _ 6 (by omega) (by omega) (by norm_num)
  simp only [headerBytes132, ljustW, headerChars, padLeftW, spaceChars,
    List.length_append, List.length_cons, List.length_replicate]
  omega

/-- C3 (amended): the encoded header is exactly 132 bytes whenever every
field fits its `%`-width (word size a single digit, orders up to 2 digits,
element counts up to 10, step up to 9, file ids up to 6, the time exponent in
the binary64 range, and the variable string at most 48 characters — all
satisfied by every header the writer produces from in-range data). -/
theorem C3_width_invariant (h : Header)
    (h1 : 0 ≤ h.wdsz ∧ h.wdsz ≤ 9)
    (h2 : -10 < h.orders.1 ∧ h.orders.1 < 100)
    (h3 : -10 < h.orders.2.1 ∧ h.orders.2.1 < 100)
    (h4 : -10 < h.orders.2.2 ∧ h.orders.2.2 < 100)
    (h5 : -(10 ^ 9) < h.nb_elems ∧ h.nb_elems < 10 ^ 10)
    (h6 : -(10 ^ 9) < h.nb_elems_file ∧ h.nb_elems_file < 10 ^ 10)
    (h7 : h.time = 0 ∨ (qLogB 10 h.time).natAbs ≤ 998)
    (h8 : -(10 ^ 8) < h.istep ∧ h.istep < 10 ^ 9)
    (h9 : -(10 ^ 5) < h.fid ∧ h.fid < 10 ^ 6)
    (h10 : -(10 ^ 5) < h.nb_files ∧ h.nb_files < 10 ^ 6)
    (h11 : h.vars.length ≤ 48) :
    (headerBytes132 h).length = 132 :=
  headerBytes132_length h h1 h2 h3 h4 h5 h6 h7 h8 h9 h10 h11

/-- Closed instance of `C3_width_invariant` at the small in-range header
`hSmall`. -/
theorem C3_witness : (headerBytes132 hSmall).length = 132 :=
  C3_width_invariant hSmall (by decide) (by decide) (by decide) (by decide)
    (by decide) (by decide) (Or.inl rfl) (by decide) (by decide) (by decide)
    (by decide)

/-! ## Lemmas: bytes and values round-trip -/

theorem bytesLE_length (w n : ℕ) : (bytesLE w n).length = w := by
  induction w generalizing n with
  | zero => rfl
  | succ v ih => simp [bytesLE, ih]

theorem encBytes_length (bo : ByteOrder) (w n : ℕ) :
    (encBytes bo w n).length = w := by
  cases bo <;> simp [encBytes, bytesLE_length]

theorem fromBytesLE_bytesLE (w n : ℕ) :
    fromBytesLE (bytesLE w n) = n % 2 ^ (8 * w) := by
  induction w generalizing n with
  | zero => simp [bytesLE, fromBytesLE, Nat.mod_one]
  | succ v ih =>
    rw [bytesLE, fromBytesLE, ih,
      show 2 ^ (8 * (v + 1)) = 256 * 2 ^ (8 * v) by
        rw [show 8 * (v + 1) = 8 + 8 * v by ring, pow_add]; norm_num,
      Nat.mod_mul]

theorem decBytesBO_encBytes (bo : ByteOrder) (w n : ℕ) :
    decBytesBO bo (encBytes bo w n) = n % 2 ^ (8 * w) := by
  cases bo <;>
    simp [decBytesBO, encBytes, List.reverse_reverse, fromBytesLE_bytesLE]

theorem decFPx24_mod (n : ℕ) : decFPx 24 8 (n % 2 ^ 32) = decFPx 24 8 n := by
  show (if n % 2 ^ 32 / 2 ^ 23 % 2 ^ 8 = 2 ^ 8 - 1 then none else _) =
    (if n / 2 ^ 23 % 2 ^ 8 = 2 ^ 8 - 1 then none else _)
  have h1 : n % 2 ^ 32 / 2 ^ 23 % 2 ^ 8 = n / 2 ^ 23 % 2 ^ 8 := by omega
  have h2 : n % 2 ^ 32 / 2 ^ (23 + 8) % 2 = n / 2 ^ (23 + 8) % 2 := by omega
  have h3 : n % 2 ^ 32 % 2 ^ 23 = n % 2 ^ 23 := by omega
  rw [h1, h2, h3]

theorem decFPx53_mod (n : ℕ) : decFPx 53 11 (n % 2 ^ 64) = decFPx 53 11 n := by
  show (if n % 2 ^ 64 / 2 ^ 52 % 2 ^ 11 = 2 ^ 11 - 1 then none else _) =
    (if n / 2 ^ 52 % 2 ^ 11 = 2 ^ 11 - 1 then none else _)
  have h1 : n % 2 ^ 64 / 2 ^ 52 % 2 ^ 11 = n / 2 ^ 52 % 2 ^ 11 := by omega
  have h2 : n % 2 ^ 64 / 2 ^ (52 + 11) % 2 = n / 2 ^ (52 + 11) % 2 := by omega
  have h3 : n % 2 ^ 64 % 2 ^ 52 = n % 2 ^ 52 := by omega
  rw [h1, h2, h3]

/-- Storing a value at word size 4 and reading it back yields exactly the
float32 rounding of the value (`astype(np.float32)` then exact widening). -/
theorem decVal4_encVal (bo : ByteOrder) (v : ℚ) :
    decFP 24 8 (decBytesBO bo (encVal 4 bo v)) = roundF32 v := by
  rw [encVal, if_pos rfl, decBytesBO_encBytes, decFP, decFPx24_mod]
  rfl

/-- Storing a finite double at word size 8 and reading it back is
bit-exact. -/
theorem decVal8_encVal (bo : ByteOrder) (v : ℚ) :
    decFP 53 11 (decBytesBO bo (encVal 8 bo v)) = roundF64 v := by
  rw [encVal, if_neg (by norm_num), decBytesBO_encBytes, decFP, decFPx53_mod]
  rfl

theorem encVal_length (wdsz : ℤ) (bo : ByteOrder) (v : ℚ)
    (h : wdsz = 4 ∨ wdsz = 8) :
    (encVal wdsz bo v).length = wdsz.toNat := by
  rcases h with rfl | rfl <;> simp [encVal, encBytes_length]

theorem encArr_length (wdsz : ℤ) (bo : ByteOrder) (arr : List ℚ)
    (h : wdsz = 4 ∨ wdsz = 8) :
    (encArr wdsz bo arr).length = wdsz.toNat * arr.length := by
  induction arr with
  | nil => simp [encArr]
  | cons v t ih =>
    simp only [encArr, List.map_cons, List.join_cons, List.length_append,
      encVal_length wdsz bo v h, List.length_cons]
    simp only [encArr] at ih
    rw [ih]
    ring

theorem encI32_length (bo : ByteOrder) (z : ℤ) : (encI32 bo z).length = 4 := by
  simp [encI32, encBytes_length]

theorem decI32_encI32 (bo : ByteOrder) (z : ℤ) (h1 : -(2 ^ 31) ≤ z)
    (h2 : z < 2 ^ 31) : decI32 bo (encI32 bo z) = z := by
  rw [decI32, encI32, decBytesBO_encBytes]
  have h3 : (z % 2 ^ 32).toNat % 2 ^ (8 * 4) = (z % 2 ^ 32).toNat := by
    have : (0 : ℤ) ≤ z % 2 ^ 32 := Int.emod_nonneg z (by norm_num)
    have : z % 2 ^ 32 < 2 ^ 32 := Int.emod_lt_of_pos z (by norm_num)
    omega
  rw [h3]
  omega

theorem decI32s_join (bo : ByteOrder) (l : List ℤ)
    (h1 : ∀ z ∈ l, -(2 ^ 31) ≤ z ∧ z < 2 ^ 31) :
    ∀ rest, decI32s bo l.length ((l.map (encI32 bo)).join ++ rest) = l := by
  induction l with
  | nil => intro rest; rfl
  | cons z t ih =>
    intro rest
    have hz := h1 z (by simp)
    have hlen := encI32_length bo z
    simp only [List.map_cons, List.join_cons, List.length_cons,
      List.append_assoc]
    rw [decI32s]
    congr 1
    · rw [List.take_append_of_le_length (by omega), List.take_of_length_le
        (by omega)]
      exact decI32_encI32 bo z hz.1 hz.2
    · rw [List.drop_append_of_le_length (by omega),
        List.drop_of_length_le (by omega), List.nil_append]
      exact ih (fun x hx => h1 x (by simp [hx])) rest

/-! ## Lemmas: tokenizing a rendered header -/

theorem char_roundtrip_list (l : List Char) :
    (l.map Char.toNat).map Char.ofNat = l := by
  induction l with
  | nil => rfl
  | cons c t ih => simp [ih, Char.ofNat_toNat]

theorem natChars_nonws (n : ℕ) : ∀ c ∈ natChars n, isPyWS c = false :=
  fun c hc => (digit_ne_specials (natChars_head_digit n c hc)).2.2.2.2.2.2.2

theorem intChars_nonws (z : ℤ) : ∀ c ∈ intChars z, isPyWS c = false := by
  intro c hc
  rw [intChars] at hc
  split_ifs at hc
  · rcases List.mem_cons.mp hc with rfl | hc2
    · decide
    · exact natChars_nonws _ c hc2
  · exact natChars_nonws _ c hc

theorem padZeros_nonws {w : ℕ} {l : List Char}
    (h : ∀ c ∈ l, isPyWS c = false) :
    ∀ c ∈ padZeros w l, isPyWS c = false := by
  intro c hc
  rw [padZeros] at hc
  rcases List.mem_append.mp hc with hc2 | hc2
  · rw [List.eq_of_mem_replicate hc2]; decide
  · exact h c hc2

theorem expChars_nonws (e : ℤ) : ∀ c ∈ expChars e, isPyWS c = false := by
  intro c hc
  rw [expChars] at hc
  rcases List.mem_append.mp hc with hc2 | hc2
  · split_ifs at hc2 <;> (rw [List.mem_singleton] at hc2; subst hc2; decide)
  · exact padZeros_nonws (natChars_nonws _) c hc2

theorem formatE13_nonws (q : ℚ) : ∀ c ∈ formatE13 q, isPyWS c = false := by
  intro c hc
  rw [formatE13] at hc
  split_ifs at hc with h0 hneg
  · rcases List.mem_cons.mp hc with rfl | hc2
    · decide
    · rcases List.mem_cons.mp hc2 with rfl | hc3
      · decide
      · rcases List.mem_append.mp hc3 with hc4 | hc4
        · rw [List.eq_of_mem_replicate hc4]; decide
        · simp only [List.mem_cons, List.mem_singleton, List.not_mem_nil,
            or_false] at hc4
          rcases hc4 with rfl | rfl | rfl | rfl <;> decide
  · rcases List.mem_append.mp hc with hc1 | hc1
    · rcases List.mem_append.mp hc1 with hc2 | hc2
      · rcases List.mem_append.mp hc2 with hc3 | hc3
        · rw [List.mem_singleton] at hc3; subst hc3; decide
        · exact natChars_nonws _ c hc3
      · rcases List.mem_cons.mp hc2 with rfl | hc3
        · decide
        · exact padZeros_nonws (natChars_nonws _) c hc3
    · rcases List.mem_cons.mp hc1 with rfl | hc2
      · decide
      · exact expChars_nonws _ c hc2
  · rcases List.mem_append.mp hc with hc1 | hc1
    · rcases List.mem_append.mp hc1 with hc2 | hc2
      · rw [List.nil_append] at hc2
        exact natChars_nonws _ c hc2
      · rcases List.mem_cons.mp hc2 with rfl | hc3
        · decide
        · exact padZeros_nonws (natChars_nonws _) c hc3
    · rcases List.mem_cons.mp hc1 with rfl | hc2
      · decide
      · exact expChars_nonws _ c hc2

theorem formatE13_ne_nil (q : ℚ) : formatE13 q ≠ [] := by
  rw [formatE13]
  split_ifs with h0 hneg <;> simp

theorem intChars_ne_nil (z : ℤ) : intChars z ≠ [] := by
  rw [intChars]
  split_ifs
  · simp
  · exact natChars_ne_nil _

theorem twoDigits_nonws {s : ℤ} (hs : 0 ≤ s) :
    ∀ c ∈ twoDigits s, isPyWS c = false := by
  intro c hc
  have h := twoDigits_all_digits hs
  rw [List.all_eq_true] at h
  exact (digit_ne_specials (h c hc)).2.2.2.2.2.2.2

theorem nb_vars_to_variables_nonws (nv : NbVars) (h5 : 0 ≤ nv.2.2.2.2) :
    ∀ c ∈ nb_vars_to_variables nv, isPyWS c = false := by
  intro c hc
  rw [nb_vars_to_variables] at hc
  rcases List.mem_append.mp hc with hc1 | hc1
  · rcases List.mem_append.mp hc1 with hc2 | hc2
    · rcases List.mem_append.mp hc2 with hc3 | hc3
      · rcases List.mem_append.mp hc3 with hc4 | hc4
        · split_ifs at hc4
          · rw [List.mem_singleton] at hc4; subst hc4; decide
          · simp at hc4
        · split_ifs at hc4
          · rw [List.mem_singleton] at hc4; subst hc4; decide
          · simp at hc4
      · split_ifs at hc3
        · rw [List.mem_singleton] at hc3; subst hc3; decide
        · simp at hc3
    · split_ifs at hc2
      · rw [List.mem_singleton] at hc2; subst hc2; decide
      · simp at hc2
  · split_ifs at hc1
    · rcases List.mem_cons.mp hc1 with rfl | hc2
      · decide
      · exact twoDigits_nonws h5 c hc2
    · simp at hc1

theorem nb_vars_to_variables_ne_nil (nv : NbVars)
    (h : nv.1 > 0 ∨ nv.2.1 > 0 ∨ nv.2.2.1 > 0 ∨ nv.2.2.2.1 > 0 ∨
      nv.2.2.2.2 > 0) :
    nb_vars_to_variables nv ≠ [] := by
  rw [nb_vars_to_variables]
  rcases h with h1 | h1 | h1 | h1 | h1 <;>
    simp [h1, List.append_eq_nil]

theorem pyTokens_spaces_prepend (k : ℕ) (l : List Char) :
    pyTokens (spaceChars k ++ l) = pyTokens l := by
  induction k with
  | zero => rfl
  | succ m ih =>
    rw [spaceChars, List.replicate_succ, List.cons_append,
      pyTokens_ws_cons ' ' _ (by decide)]
    exact ih

theorem pyTokens_spaces (k : ℕ) : pyTokens (spaceChars k) = [] := by
  have := pyTokens_spaces_prepend k []
  simpa using this

theorem pyTokens_token_spaces (t : List Char) (k : ℕ) (htne : t ≠ [])
    (ht : ∀ x ∈ t, isPyWS x = false) :
    pyTokens (t ++ spaceChars k) = [t] := by
  cases k with
  | zero => simpa [spaceChars] using pyTokens_token_end t htne ht
  | succ m =>
    rw [spaceChars, List.replicate_succ,
      pyTokens_token_ws t ' ' _ htne ht (by decide),
      show List.replicate m ' ' = spaceChars m from rfl, pyTokens_spaces]

theorem fieldsJoin_tokens (fs : List (ℕ × List Char)) (rest : List Char)
    (hfs : ∀ p ∈ fs, p.2 ≠ [] ∧ ∀ c ∈ p.2, isPyWS c = false) :
    pyTokens (fieldsJoin fs (' ' :: rest)) =
      fs.map Prod.snd ++ pyTokens rest := by
  induction fs with
  | nil => exact pyTokens_ws_cons ' ' rest (by decide)
  | cons p fs ih =>
    obtain ⟨w, t⟩ := p
    obtain ⟨htne, htws⟩ := hfs (w, t) (by simp)
    have hnext : ∃ Z, fieldsJoin fs (' ' :: rest) = ' ' :: Z := by
      cases fs with
      | nil => exact ⟨rest, rfl⟩
      | cons p' fs' =>
        exact ⟨padLeftW p'.1 p'.2 ++ fieldsJoin fs' (' ' :: rest), rfl⟩
    obtain ⟨Z, hZ⟩ := hnext
    show pyTokens (' ' :: (padLeftW w t ++ fieldsJoin fs (' ' :: rest))) = _
    rw [pyTokens_ws_cons ' ' _ (by decide), padLeftW, List.append_assoc,
      pyTokens_spaces_prepend, hZ,
      pyTokens_token_ws t ' ' Z htne htws (by decide), ← pyTokens_ws_cons
        ' ' Z (by decide), ← hZ, ih (fun p hp => hfs p (by simp [hp]))]
    simp

theorem headerBytes132_repr (h : Header) :
    headerBytes132 h = ['#', 's', 't', 'd'] ++
      fieldsJoin
        [(1, intChars h.wdsz), (2, intChars h.orders.1),
         (2, intChars h.orders.2.1), (2, intChars h.orders.2.2),
         (10, intChars h.nb_elems), (10, intChars h.nb_elems_file),
         (20, formatE13 h.time), (9, intChars h.istep), (6, intChars h.fid),
         (6, intChars h.nb_files)]
        (' ' :: (h.vars ++ spaceChars (132 - (headerChars h).length))) := by
  rw [headerBytes132, ljustW]
  simp [headerChars, fieldsJoin, List.append_assoc]

/-- Tokenizing a rendered header yields exactly twelve tokens: the marker and
the eleven fields. -/
theorem pyTokens_headerBytes132 (h : Header) (hv1 : h.vars ≠ [])
    (hv2 : ∀ c ∈ h.vars, isPyWS c = false) :
    pyTokens (headerBytes132 h) =
      [['#', 's', 't', 'd'], intChars h.wdsz, intChars h.orders.1,
       intChars h.orders.2.1, intChars h.orders.2.2, intChars h.nb_elems,
       intChars h.nb_elems_file, formatE13 h.time, intChars h.istep,
       intChars h.fid, intChars h.nb_files, h.vars] := by
  rw [headerBytes132_repr h]
  have hwf : ∀ p ∈ [((1 : ℕ), intChars h.wdsz), (2, intChars h.orders.1),
      (2, intChars h.orders.2.1), (2, intChars h.orders.2.2),
      (10, intChars h.nb_elems), (10, intChars h.nb_elems_file),
      (20, formatE13 h.time), (9, intChars h.istep), (6, intChars h.fid),
      (6, intChars h.nb_files)],
      p.2 ≠ [] ∧ ∀ c ∈ p.2, isPyWS c = false := by
    intro p hp
    simp only [List.mem_cons, List.not_mem_nil, or_false] at hp
    rcases hp with rfl | rfl | rfl | rfl | rfl | rfl | rfl | rfl | rfl | rfl <;>
      first
      | exact ⟨intChars_ne_nil _, intChars_nonws _⟩
      | exact ⟨formatE13_ne_nil _, formatE13_nonws _⟩
  have hZ : fieldsJoin
      [((1 : ℕ), intChars h.wdsz), (2, intChars h.orders.1),
       (2, intChars h.orders.2.1), (2, intChars h.orders.2.2),
       (10, intChars h.nb_elems), (10, intChars h.nb_elems_file),
       (20, formatE13 h.time), (9, intChars h.istep), (6, intChars h.fid),
       (6, intChars h.nb_files)]
      (' ' :: (h.vars ++ spaceChars (132 - (headerChars h).length))) =
      ' ' :: (padLeftW 1 (intChars h.wdsz) ++ fieldsJoin
        [(2, intChars h.orders.1),
         (2, intChars h.orders.2.1), (2, intChars h.orders.2.2),
         (10, intChars h.nb_elems), (10, intChars h.nb_elems_file),
         (20, formatE13 h.time), (9, intChars h.istep), (6, intChars h.fid),
         (6, intChars h.nb_files)]
        (' ' :: (h.vars ++ spaceChars (132 - (headerChars h).length)))) := rfl
  rw [hZ, pyTokens_token_ws ['#', 's', 't', 'd'] ' ' _ (by decide) (by decide)
    (by decide), ← pyTokens_ws_cons ' ' _ (by decide), ← hZ,
    fieldsJoin_tokens _ _ hwf,
    pyTokens_token_spaces h.vars _ hv1 hv2]
  rfl

/-! ## Lemmas: parsing a rendered `%20.13E` value -/

theorem digitsValCore_from (l : List Char) :
    ∀ s : ℕ, l.foldl (fun a c => 10 * a + (c.toNat - 48)) s =
      s * 10 ^ l.length + digitsValCore l := by
  induction l with
  | nil => intro s; simp [digitsValCore]
  | cons c t ih =>
    intro s
    show t.foldl _ (10 * s + (c.toNat - 48)) = _
    rw [ih (10 * s + (c.toNat - 48))]
    have h2 : digitsValCore (c :: t) =
        (c.toNat - 48) * 10 ^ t.length + digitsValCore t := by
      show t.foldl _ (10 * 0 + (c.toNat - 48)) = _
      rw [ih (10 * 0 + (c.toNat - 48))]
      ring_nf
    rw [h2, List.length_cons]
    ring

theorem digitsValCore_append (a b : List Char) :
    digitsValCore (a ++ b) =
      digitsValCore a * 10 ^ b.length + digitsValCore b := by
  rw [digitsValCore, List.foldl_append, digitsValCore_from b]
  rfl

theorem takeWhile_all_append (p : Char → Bool) (a : List Char) (x : Char)
    (b : List Char) (ha : ∀ c ∈ a, p c = true) (hx : p x = false) :
    (a ++ x :: b).takeWhile p = a := by
  induction a with
  | nil => simp [List.takeWhile, hx]
  | cons c t ih =>
    rw [List.cons_append, List.takeWhile_cons, ha c (by simp),
      ih (fun d hd => ha d (by simp [hd]))]
    simp

theorem drop_len_append (a r : List Char) : (a ++ r).drop a.length = r := by
  rw [List.drop_append_of_le_length (le_refl _)]
  simp

theorem pyIntParse_expChars (e : ℤ) : pyIntParse (expChars e) = some e := by
  rw [expChars]
  split_ifs with hneg
  · show (digitsVal (padZeros 2 (natChars e.natAbs))).map
      (fun n => -(n : ℤ)) = some e
    rw [digitsVal_padZeros 2 _ (digitsVal_natChars _)]
    show some (-(e.natAbs : ℤ)) = some e
    rw [Option.some_inj]
    omega
  · have hall : (padZeros 2 (natChars e.natAbs)).all Char.isDigit = true := by
      simp only [padZeros, List.all_append, natChars_all_digits,
        Bool.and_true, List.all_eq_true]
      intro c hc
      rw [List.eq_of_mem_replicate hc]
      decide
    show pyIntParse (('+' :: padZeros 2 (natChars e.natAbs) : List Char)) =
      some e
    show (digitsVal (padZeros 2 (natChars e.natAbs))).map
      (fun n => (n : ℤ)) = some e
    rw [digitsVal_padZeros 2 _ (digitsVal_natChars _)]
    show some ((e.natAbs : ℤ)) = some e
    rw [Option.some_inj]
    omega

theorem digit_satisfies_mant {c : Char} (h : c.isDigit = true) :
    (c ≠ '.') ∧ c ≠ 'e' ∧ c ≠ 'E' := by
  refine ⟨?_, ?_, ?_⟩ <;>
    (intro hcon; subst hcon; exact absurd h (by decide))

theorem pyFloatMant_canonical (A B : List Char) (hA : A ≠ [])
    (hAd : A.all Char.isDigit = true) (hBd : B.all Char.isDigit = true) :
    pyFloatMant (A ++ '.' :: B) =
      some ((digitsValCore (A ++ B) : ℚ) / 10 ^ B.length) := by
  have hip : (A ++ '.' :: B).takeWhile (· ≠ '.') = A := by
    apply takeWhile_all_append
    · intro c hc
      have hcd : c.isDigit = true := by
        rw [List.all_eq_true] at hAd
        exact hAd c hc
      simp [(digit_satisfies_mant hcd).1]
    · decide
  rw [pyFloatMant.eq_def, hip, drop_len_append]
  have hne : A ++ B ≠ [] := by
    intro hcon
    exact hA (List.append_eq_nil.mp hcon).1
  have hall : (A ++ B).all Char.isDigit = true := by
    simp [List.all_append, hAd, hBd]
  show (if A ++ B = [] then none
    else if (A ++ B).all Char.isDigit = true then
      some ((digitsValCore (A ++ B) : ℚ) / 10 ^ B.length)
    else none) = some ((digitsValCore (A ++ B) : ℚ) / 10 ^ B.length)
  rw [if_neg hne, if_pos hall]

theorem pyFloatValCore_canonical (A B C : List Char) (e : ℤ) (hA : A ≠ [])
    (hAd : A.all Char.isDigit = true) (hBd : B.all Char.isDigit = true)
    (hC : pyIntParse C = some e) :
    pyFloatValCore ((A ++ '.' :: B) ++ 'E' :: C) =
      some ((digitsValCore (A ++ B) : ℚ) / 10 ^ B.length * (10 : ℚ) ^ e) := by
  have hmant : (((A ++ '.' :: B) ++ 'E' :: C).takeWhile
      (fun c => c ≠ 'e' ∧ c ≠ 'E')) = A ++ '.' :: B := by
    apply takeWhile_all_append
    · intro c hc
      rcases List.mem_append.mp hc with hc1 | hc1
      · have hcd : c.isDigit = true := by
          rw [List.all_eq_true] at hAd
          exact hAd c hc1
        simp [(digit_satisfies_mant hcd).2.1, (digit_satisfies_mant hcd).2.2]
      · rcases List.mem_cons.mp hc1 with rfl | hc2
        · decide
        · have hcd : c.isDigit = true := by
            rw [List.all_eq_true] at hBd
            exact hBd c hc2
          simp [(digit_satisfies_mant hcd).2.1,
            (digit_satisfies_mant hcd).2.2]
    · decide
  rw [pyFloatValCore.eq_def, hmant, drop_len_append,
    pyFloatMant_canonical A B hA hAd hBd]
  show (some ((digitsValCore (A ++ B) : ℚ) / 10 ^ B.length)).bind
      (fun base => Option.map (fun ex => base * (10 : ℚ) ^ ex)
        (pyIntParse C)) =
    some ((digitsValCore (A ++ B) : ℚ) / 10 ^ B.length * (10 : ℚ) ^ e)
  rw [hC]
  rfl

theorem pyFloatVal_formatE13 (q : ℚ) :
    pyFloatVal (formatE13 q) = some (sciRound13 q) := by
  rcases eq_or_ne q 0 with rfl | hq0
  · decide
  · obtain ⟨hm_lo, hm_hi⟩ := sciParts13_mantissa_bounds q hq0
    set n := (sciParts13 q).2 with hn
    set e := (sciParts13 q).1 with he
    set A := natChars (n.toNat / 10 ^ 13) with hA
    set B := padZeros 13 (natChars (n.toNat % 10 ^ 13)) with hB
    set C := expChars e with hC
    have hAne : A ≠ [] := natChars_ne_nil _
    have hAd : A.all Char.isDigit = true := natChars_all_digits _
    have hBd : B.all Char.isDigit = true := by
      rw [hB]
      simp only [padZeros, List.all_append, natChars_all_digits,
        Bool.and_true, List.all_eq_true]
      intro c hc
      rw [List.eq_of_mem_replicate hc]
      decide
    have hCp : pyIntParse C = some e := pyIntParse_expChars e
    have hBlen : B.length = 13 := by
      rw [hB]
      apply padZeros_length
      apply natChars_length_le _ 13 _ (by norm_num)
      have : (10 : ℕ) ^ 13 > 0 := by norm_num
      omega
    have hval : digitsValCore (A ++ B) = n.toNat := by
      rw [digitsValCore_append, hBlen, hA, hB, digitsValCore_natChars,
        padZeros, digitsValCore_zeros_prepend, digitsValCore_natChars]
      have h13 : (0 : ℕ) < 10 ^ 13 := by norm_num
      omega
    have hcore : pyFloatValCore ((A ++ '.' :: B) ++ 'E' :: C) =
        some ((digitsValCore (A ++ B) : ℚ) / 10 ^ B.length * (10 : ℚ) ^ e) :=
      pyFloatValCore_canonical A B C e hAne hAd hBd hCp
    have hn0 : (0 : ℤ) ≤ n := le_trans (by norm_num) hm_lo
    have hfinal : ((digitsValCore (A ++ B) : ℚ)) / 10 ^ B.length *
        (10 : ℚ) ^ e = ((n : ℤ) : ℚ) * (10 : ℚ) ^ (e - 13) := by
      rw [hval, hBlen, zpow_sub₀ (by norm_num : (10 : ℚ) ≠ 0)]
      have hcast : ((n.toNat : ℕ) : ℚ) = ((n : ℤ) : ℚ) := by
        rw [← Int.cast_natCast, Int.toNat_of_nonneg hn0]
      rw [hcast, show ((13 : ℤ)) = ((13 : ℕ) : ℤ) by norm_num,
        zpow_natCast]
      ring
    have hfmt : formatE13 q =
        (((if q < 0 then ['-'] else []) ++ A) ++ '.' :: B) ++ 'E' :: C := by
      rw [formatE13, if_neg hq0]
    rw [hfmt]
    by_cases hneg : q < 0
    · rw [if_pos hneg]
      show pyFloatVal ('-' :: ((A ++ '.' :: B) ++ 'E' :: C)) =
        some (sciRound13 q)
      show (pyFloatValCore ((A ++ '.' :: B) ++ 'E' :: C)).map
        (fun x => -x) = some (sciRound13 q)
      rw [hcore]
      show some (-(((digitsValCore (A ++ B) : ℚ)) / 10 ^ B.length *
        (10 : ℚ) ^ e)) = some (sciRound13 q)
      rw [hfinal, sciRound13, if_neg hq0, if_pos hneg, Option.some_inj]
      ring
    · rw [if_neg hneg]
      show pyFloatVal ((A ++ '.' :: B) ++ 'E' :: C) = some (sciRound13 q)
      rcases hAcons : A with _ | ⟨a, A'⟩
      · exact absurd hAcons hAne
      · have had : a.isDigit = true := by
          rw [List.all_eq_true] at hAd
          exact hAd a (by rw [hAcons]; simp)
        obtain ⟨ha1, ha2, -⟩ := digit_ne_specials had
        have hrw : ((a :: A' ++ '.' :: B) ++ 'E' :: C) =
            a :: ((A' ++ '.' :: B) ++ 'E' :: C) := by simp
        rw [hrw, pyFloatVal.eq_def]
        split
        · rename_i heq
          rw [List.cons.injEq] at heq
          exact absurd heq.1 ha1
        · rename_i heq
          rw [List.cons.injEq] at heq
          exact absurd heq.1 ha2
        · rw [← hrw, ← hAcons, hcore]
          rw [hfinal, sciRound13, if_neg hq0, if_neg hneg, Option.some_inj]
          ring

/-- Parsing the rendered time token with Python `float` yields the printed
value rounded to binary64. -/
theorem pyFloatParse_formatE13 (q : ℚ) :
    pyFloatParse (formatE13 q) = some (roundF64 (sciRound13 q)) := by
  rw [pyFloatParse, pyFloatVal_formatE13]
  rfl

/-! ## Lemmas: the header round-trip -/

theorem parseHeaderTokens_full (t0 : List Char)
    (w o0 o1 o2 ne nef istep fid nbf : ℤ) (time : ℚ) (v : List Char)
    (rest : List (List Char)) :
    parseHeaderTokens (t0 :: intChars w :: intChars o0 :: intChars o1 ::
        intChars o2 :: intChars ne :: intChars nef :: formatE13 time ::
        intChars istep :: intChars fid :: intChars nbf :: v :: rest) =
      (mkHeader w (o0, o1, o2) ne nef (roundF64 (sciRound13 time)) istep fid
          nbf (some v) none).mapError (fun _ => RErr.headerParse) := by
  simp only [parseHeaderTokens, pyIntParse_intChars, pyFloatParse_formatE13]

/-- Re-reading a rendered header recovers every numeric field exactly and the
time up to the `%20.13E` rendering; the variable string is re-derived into a
count tuple. -/
theorem readHeaderStr_headerBytes132 (h : Header) (hv1 : h.vars ≠ [])
    (hv2 : ∀ c ∈ h.vars, isPyWS c = false) :
    readHeaderStr (headerBytes132 h) =
      (mkHeader h.wdsz h.orders h.nb_elems h.nb_elems_file
          (roundF64 (sciRound13 h.time)) h.istep h.fid h.nb_files
          (some h.vars) none).mapError (fun _ => RErr.headerParse) := by
  rw [readHeaderStr, pyTokens_headerBytes132 h hv1 hv2]
  have := parseHeaderTokens_full ['#', 's', 't', 'd'] h.wdsz h.orders.1
    h.orders.2.1 h.orders.2.2 h.nb_elems h.nb_elems_file h.istep h.fid
    h.nb_files h.time h.vars []
  simpa using this

theorem elemRound_get (wdsz : ℤ) (el : Elem) (g : Grp) :
    (elemRound wdsz el).get g = (el.get g).map (List.map (roundW wdsz)) := by
  cases g <;> rfl

theorem getD_set {α : Type} (l : List α) (idx j : ℕ) (x de : α) :
    (l.set idx x).getD j de =
      if j = idx ∧ j < l.length then x else l.getD j de := by
  induction l generalizing idx j with
  | nil => simp
  | cons a t ih =>
    cases idx with
    | zero =>
      cases j with
      | zero => simp
      | succ m =>
        show t.getD m de = _
        rw [if_neg (by omega)]
        rfl
    | succ n =>
      cases j with
      | zero =>
        show a = _
        rw [if_neg (by omega)]
        rfl
      | succ m =>
        show (t.set n x).getD m de = _
        rw [ih n m]
        by_cases hc : m = n ∧ m < t.length
        · rw [if_pos hc, if_pos (by simp; omega)]
        · rw [if_neg hc, if_neg (by simp; omega)]
          rfl

theorem Elem.get_setComp_same (el : Elem) (g : Grp) (i : ℕ) (a : List ℚ) :
    (el.setComp g i a).get g = (el.get g).set i a := by
  cases g <;> rfl

theorem Elem.get_setComp_ne (el : Elem) {g g' : Grp} (hne : g' ≠ g) (i : ℕ)
    (a : List ℚ) : (el.setComp g i a).get g' = el.get g' := by
  cases g <;> cases g' <;> first | rfl | exact absurd rfl hne

theorem elem_length_setElemComp (d : HexaData) (idx : ℕ) (g : Grp) (i : ℕ)
    (arr : List ℚ) : (d.setElemComp idx g i arr).elem.length = d.elem.length := by
  simp [HexaData.setElemComp]

theorem groupLen_setElemComp (d : HexaData) (idx : ℕ) (g : Grp) (i : ℕ)
    (arr : List ℚ) (j : ℕ) (g' : Grp) :
    groupLen (d.setElemComp idx g i arr) j g' = groupLen d j g' := by
  rw [groupLen, groupLen,
    show (d.setElemComp idx g i arr).elem =
      d.elem.set idx ((d.elem.getD idx emptyElem).setComp g i arr) from rfl,
    getD_set]
  by_cases hc : j = idx ∧ j < d.elem.length
  · rw [if_pos hc]
    by_cases hg : g' = g
    · subst hg
      rw [Elem.get_setComp_same, List.length_set, hc.1]
    · rw [Elem.get_setComp_ne _ hg, hc.1]
  · rw [if_neg hc]

theorem slot_setElemComp_self (d : HexaData) (idx : ℕ) (g : Grp) (i : ℕ)
    (arr : List ℚ) (hidx : idx < d.elem.length) (hi : i < groupLen d idx g) :
    slot (d.setElemComp idx g i arr) idx g i = arr := by
  rw [slot,
    show (d.setElemComp idx g i arr).elem =
      d.elem.set idx ((d.elem.getD idx emptyElem).setComp g i arr) from rfl,
    getD_set, if_pos ⟨rfl, hidx⟩, Elem.get_setComp_same, getD_set,
    if_pos ⟨rfl, hi⟩]

theorem slot_setElemComp_ne (d : HexaData) (idx : ℕ) (g : Grp) (i : ℕ)
    (arr : List ℚ) (j : ℕ) (g' : Grp) (i' : ℕ)
    (h : j ≠ idx ∨ g' ≠ g ∨ i' ≠ i) :
    slot (d.setElemComp idx g i arr) j g' i' = slot d j g' i' := by
  rw [slot, slot,
    show (d.setElemComp idx g i arr).elem =
      d.elem.set idx ((d.elem.getD idx emptyElem).setComp g i arr) from rfl,
    getD_set]
  by_cases hj : j = idx ∧ j < d.elem.length
  · rw [if_pos hj, hj.1]
    by_cases hg : g' = g
    · subst hg
      have hi : i' ≠ i := by
        rcases h with h | h | h
        · exact absurd hj.1 h
        · exact absurd rfl h
        · exact h
      rw [Elem.get_setComp_same, getD_set, if_neg (by intro hc; exact hi hc.1)]
    · rw [Elem.get_setComp_ne _ hg]
  · rw [if_neg hj]

theorem pyIdx_lt {n : ℕ} {z : ℤ} {idx : ℕ} (h : pyIdx n z = some idx) :
    idx < n := by
  rw [pyIdx] at h
  split_ifs at h with h1 h2 <;> rw [Option.some_inj] at h <;> omega

theorem mem_pairsElemOuter (elmap : List ℤ) (cnt : ℕ) (iel : ℤ) (i : ℕ) :
    (iel, i) ∈ pairsElemOuter elmap cnt ↔ iel ∈ elmap ∧ i < cnt := by
  simp only [pairsElemOuter, List.mem_bind, List.mem_map, List.mem_range,
    Prod.mk.injEq]
  constructor
  · rintro ⟨e, he, k, hk, rfl, rfl⟩
    exact ⟨he, hk⟩
  · rintro ⟨he, hi⟩
    exact ⟨iel, he, i, hi, rfl, rfl⟩

theorem mem_pairsCompOuter (elmap : List ℤ) (cnt : ℕ) (iel : ℤ) (i : ℕ) :
    (iel, i) ∈ pairsCompOuter elmap cnt ↔ iel ∈ elmap ∧ i < cnt := by
  simp only [pairsCompOuter, List.mem_bind, List.mem_map, List.mem_range,
    Prod.mk.injEq]
  constructor
  · rintro ⟨k, hk, e, he, rfl, rfl⟩
    exact ⟨he, hk⟩
  · rintro ⟨he, hi⟩
    exact ⟨i, hi, iel, he, rfl, rfl⟩

theorem mem_grpPairs (g : Grp) (elmap : List ℤ) (cnt : ℕ) (iel : ℤ) (i : ℕ) :
    (iel, i) ∈ grpPairs g elmap cnt ↔ iel ∈ elmap ∧ i < cnt := by
  cases g <;>
    first
    | exact mem_pairsElemOuter elmap cnt iel i
    | exact mem_pairsCompOuter elmap cnt iel i

/-- The writer's endian tag is recognized by the reader's probe. -/
theorem detectEndian_emitEtag (bo : ByteOrder) :
    detectEndian (emitEtag bo) = .ok bo := by
  cases bo <;> decide

theorem Elem.eq_of_get {a b : Elem} (h : ∀ g, a.get g = b.get g) : a = b := by
  cases a
  cases b
  have h1 := h .pos
  have h2 := h .vel
  have h3 := h .pres
  have h4 := h .temp
  have h5 := h .scal
  simp only [Elem.get] at h1 h2 h3 h4 h5
  simp [h1, h2, h3, h4, h5]

theorem HexaData.eq_of {a b : HexaData} (h1 : a.ndim = b.ndim)
    (h2 : a.nel = b.nel) (h3 : a.lr1 = b.lr1) (h4 : a.var = b.var)
    (h5 : a.time = b.time) (h6 : a.istep = b.istep) (h7 : a.wdsz = b.wdsz)
    (h8 : a.endian = b.endian) (h9 : a.elmap = b.elmap)
    (h10 : a.elem = b.elem) : a = b := by
  cases a
  cases b
  simp_all

theorem decValsW_encArr4 (bo : ByteOrder) (arr : List ℚ) (rest : List ℕ) :
    decValsW 24 8 4 bo arr.length (encArr 4 bo arr ++ rest) =
      arr.map roundF32 := by
  induction arr generalizing rest with
  | nil => rfl
  | cons v t ih =>
    have hlen : (encVal 4 bo v).length = 4 := encVal_length 4 bo v (Or.inl rfl)
    have hjoin : encArr 4 bo (v :: t) = encVal 4 bo v ++ encArr 4 bo t := by
      simp [encArr]
    rw [List.length_cons, decValsW, hjoin, List.append_assoc,
      List.take_append_of_le_length (by omega),
      List.take_of_length_le (by omega),
      List.drop_append_of_le_length (by omega),
      List.drop_of_length_le (by omega), List.nil_append,
      decVal4_encVal, List.map_cons, ih]

theorem decValsW_encArr8 (bo : ByteOrder) (arr : List ℚ) (rest : List ℕ) :
    decValsW 53 11 8 bo arr.length (encArr 8 bo arr ++ rest) =
      arr.map roundF64 := by
  induction arr generalizing rest with
  | nil => rfl
  | cons v t ih =>
    have hlen : (encVal 8 bo v).length = 8 := encVal_length 8 bo v (Or.inr rfl)
    have hjoin : encArr 8 bo (v :: t) = encVal 8 bo v ++ encArr 8 bo t := by
      simp [encArr]
    rw [List.length_cons, decValsW, hjoin, List.append_assoc,
      List.take_append_of_le_length (by omega),
      List.take_of_length_le (by omega),
      List.drop_append_of_le_length (by omega),
      List.drop_of_length_le (by omega), List.nil_append,
      decVal8_encVal, List.map_cons, ih]

/-- Reading back one serialized array recovers it up to the word-size
narrowing and leaves the rest of the stream untouched. -/
theorem readArr_encArr (wdsz : ℤ) (hw : wdsz = 4 ∨ wdsz = 8) (bo : ByteOrder)
    (npts : ℕ) (arr : List ℚ) (hlen : arr.length = npts) (rest : List ℕ) :
    readArr wdsz bo npts (encArr wdsz bo arr ++ rest) =
      .ok (arr.map (roundW wdsz), rest) := by
  subst hlen
  have hmap4 : arr.map (roundW 4) = arr.map roundF32 :=
    List.map_congr_left (fun v _ => by rw [roundW, if_pos rfl])
  have hmap8 : arr.map (roundW 8) = arr.map roundF64 :=
    List.map_congr_left (fun v _ => by rw [roundW, if_neg (by norm_num)])
  rcases hw with rfl | rfl
  · have ha : (encArr 4 bo arr).length = 4 * arr.length := by
      simpa using encArr_length 4 bo arr (Or.inl rfl)
    rw [readArr, if_pos rfl,
      if_pos (by rw [List.length_append, ha]; omega),
      decValsW_encArr4, List.drop_append_of_le_length (by omega),
      List.drop_of_length_le (by omega), List.nil_append, hmap4]
  · have ha : (encArr 8 bo arr).length = 8 * arr.length := by
      simpa using encArr_length 8 bo arr (Or.inr rfl)
    rw [readArr, if_neg (by norm_num), if_pos rfl,
      if_pos (by rw [List.length_append, ha]; omega),
      decValsW_encArr8, List.drop_append_of_le_length (by omega),
      List.drop_of_length_le (by omega), List.nil_append, hmap8]

theorem elmapBytes_length (bo : ByteOrder) (l : List ℤ) :
    ((l.map (encI32 bo)).join).length = 4 * l.length := by
  induction l with
  | nil => rfl
  | cons z t ih =>
    simp only [List.map_cons, List.join_cons, List.length_append,
      encI32_length, List.length_cons, ih]
    ring

theorem groupLen_replicate_zero (d : HexaData) (nv : ℕ × ℕ × ℕ × ℕ × ℕ)
    (npts n : ℕ) (hd : d.elem = List.replicate n (zeroElem nv npts))
    (j : ℕ) (hj : j < n) (g : Grp) : groupLen d j g = nvCount nv g := by
  rw [groupLen, hd, List.getD_eq_getElem _ _ (by simpa using hj),
    List.getElem_replicate]
  cases g <;> simp [zeroElem, Elem.get, nvCount]

/-- Stream alignment between writer and reader for one group: the reader
consumes exactly the writer's bytes, succeeds, overwrites exactly the
targeted slots with the narrowed source arrays, and changes nothing else. -/
theorem readPairs_writePairs (src : HexaData) (g : Grp) (npts : ℕ)
    (hw : src.wdsz = 4 ∨ src.wdsz = 8) :
    ∀ (P : List (ℤ × ℕ)) (acc : HexaData) (rest : List ℕ),
      acc.elem.length = src.elem.length →
      (∀ p ∈ P, ∃ idx, pyIdx src.elem.length (p.1 - 1) = some idx ∧
        (slot src idx g p.2).length = npts ∧ p.2 < groupLen acc idx g) →
      (writePairs src g P).2 = true ∧
      ∃ d2 : HexaData,
        readPairs src.wdsz src.endian npts g P acc
            ((writePairs src g P).1 ++ rest) = .ok (d2, rest) ∧
        d2.elem.length = acc.elem.length ∧
        (∀ j g1, groupLen d2 j g1 = groupLen acc j g1) ∧
        d2.ndim = acc.ndim ∧ d2.nel = acc.nel ∧ d2.lr1 = acc.lr1 ∧
        d2.var = acc.var ∧ d2.time = acc.time ∧ d2.istep = acc.istep ∧
        d2.wdsz = acc.wdsz ∧ d2.endian = acc.endian ∧ d2.elmap = acc.elmap ∧
        (∀ j g1 i1, covered src g P j g1 i1 →
          slot d2 j g1 i1 = (slot src j g i1).map (roundW src.wdsz)) ∧
        (∀ j g1 i1, ¬ covered src g P j g1 i1 →
          slot d2 j g1 i1 = slot acc j g1 i1) := by
  intro P
  induction P with
  | nil =>
    intro acc rest hacc hP
    refine ⟨rfl, acc, rfl, rfl, fun j g1 => rfl,
      rfl, rfl, rfl, rfl, rfl, rfl, rfl, rfl, rfl, ?_, fun j g1 i1 _ => rfl⟩
    rintro j g1 i1 ⟨rfl, iel, hmem, -⟩
    exact absurd hmem (List.not_mem_nil _)
  | cons p P ih =>
    intro acc rest hacc hP
    obtain ⟨iel, i⟩ := p
    obtain ⟨idx, hidx, hslen, hlt⟩ := hP (iel, i) (by simp)
    have hidxlt : idx < src.elem.length := pyIdx_lt hidx
    have hwstep : writePairs src g ((iel, i) :: P) =
        (encArr src.wdsz src.endian (slot src idx g i) ++
          (writePairs src g P).1, (writePairs src g P).2) := by
      rw [writePairs, hidx]
      rfl
    have hPidx : pyIdx acc.elem.length (iel - 1) = some idx := by
      rw [hacc]; exact hidx
    have hread : readArr src.wdsz src.endian npts
        (encArr src.wdsz src.endian (slot src idx g i) ++
          ((writePairs src g P).1 ++ rest)) =
        .ok ((slot src idx g i).map (roundW src.wdsz),
          (writePairs src g P).1 ++ rest) :=
      readArr_encArr _ hw _ _ _ hslen _
    have hrstep : readPairs src.wdsz src.endian npts g ((iel, i) :: P) acc
        ((encArr src.wdsz src.endian (slot src idx g i) ++
          (writePairs src g P).1) ++ rest) =
        readPairs src.wdsz src.endian npts g P
          (acc.setElemComp idx g i ((slot src idx g i).map (roundW src.wdsz)))
          ((writePairs src g P).1 ++ rest) := by
      rw [List.append_assoc, readPairs, hPidx, hread]
    have hacc2len :
        (acc.setElemComp idx g i
          ((slot src idx g i).map (roundW src.wdsz))).elem.length =
          src.elem.length := by
      rw [elem_length_setElemComp, hacc]
    have hP2 : ∀ p ∈ P, ∃ idx2, pyIdx src.elem.length (p.1 - 1) = some idx2 ∧
        (slot src idx2 g p.2).length = npts ∧
        p.2 < groupLen (acc.setElemComp idx g i
          ((slot src idx g i).map (roundW src.wdsz))) idx2 g := by
      intro p hp
      obtain ⟨idx2, h1, h2, h3⟩ := hP p (by simp [hp])
      exact ⟨idx2, h1, h2, by rw [groupLen_setElemComp]; exact h3⟩
    obtain ⟨hwt, d2, hr, hlen2, hgl2, hf1, hf2, hf3, hf4, hf5, hf6, hf7, hf8,
      hf9, hcov, hnot⟩ := ih
        (acc.setElemComp idx g i ((slot src idx g i).map (roundW src.wdsz)))
        rest hacc2len hP2
    refine ⟨by rw [hwstep]; exact hwt, d2, ?_,
      by rw [hlen2, elem_length_setElemComp],
      fun j g1 => by rw [hgl2 j g1, groupLen_setElemComp],
      hf1, hf2, hf3, hf4, hf5, hf6, hf7, hf8, hf9, ?_, ?_⟩
    · rw [hwstep, hrstep]
      exact hr
    · rintro j g1 i1 ⟨hg1, iel2, hmem, hpy⟩
      rcases List.mem_cons.mp hmem with heq | hmem2
      · rw [Prod.mk.injEq] at heq
        obtain ⟨rfl, rfl⟩ := heq
        have hji : j = idx := by
          rw [hidx] at hpy
          exact (Option.some_inj.mp hpy).symm
        by_cases hc : covered src g P j g1 i1
        · exact hcov j g1 i1 hc
        · rw [hnot j g1 i1 hc, hg1, hji,
            slot_setElemComp_self acc idx g i1 _ (by rw [hacc]; exact hidxlt)
              hlt]
      · exact hcov j g1 i1 ⟨hg1, iel2, hmem2, hpy⟩
    · intro j g1 i1 hnc
      have hnc2 : ¬ covered src g P j g1 i1 := by
        rintro ⟨hg, iel2, hmem2, hpy⟩
        exact hnc ⟨hg, iel2, List.mem_cons_of_mem _ hmem2, hpy⟩
      rw [hnot j g1 i1 hnc2]
      apply slot_setElemComp_ne
      by_contra hcon
      push_neg at hcon
      obtain ⟨hj, hg, hi⟩ := hcon
      refine hnc ⟨hg, iel, ?_, ?_⟩
      · rw [hi]
        exact List.mem_cons_self _ _
      · rw [hj]
        exact hidx

/-- The writer never hits an `IndexError` when every element-map entry
resolves. -/
theorem writePairs_sound (src : HexaData) (g : Grp) :
    ∀ P : List (ℤ × ℕ),
      (∀ p ∈ P, ∃ idx, pyIdx src.elem.length (p.1 - 1) = some idx) →
      (writePairs src g P).2 = true := by
  intro P
  induction P with
  | nil => intro _; rfl
  | cons p P ih =>
    intro hP
    obtain ⟨iel, i⟩ := p
    obtain ⟨idx, hidx⟩ := hP (iel, i) (by simp)
    have hstep : writePairs src g ((iel, i) :: P) =
        (encArr src.wdsz src.endian (slot src idx g i) ++
          (writePairs src g P).1, (writePairs src g P).2) := by
      rw [writePairs, hidx]
      rfl
    rw [hstep]
    exact ih (fun q hq => hP q (by simp [hq]))

theorem trailerPairs_sound (src : HexaData) (g : Grp) :
    ∀ P : List (ℤ × ℕ),
      (∀ p ∈ P, ∃ idx, pyIdx src.elem.length (p.1 - 1) = some idx) →
      (trailerPairs src g P).2 = true := by
  intro P
  induction P with
  | nil => intro _; rfl
  | cons p P ih =>
    intro hP
    obtain ⟨iel, i⟩ := p
    obtain ⟨idx, hidx⟩ := hP (iel, i) (by simp)
    have hstep : (trailerPairs src g ((iel, i) :: P)).2 =
        (trailerPairs src g P).2 := by
      rw [trailerPairs, hidx]
    rw [hstep]
    exact ih (fun q hq => hP q (by simp [hq]))

theorem twoDigits_length {s : ℤ} (h0 : 0 ≤ s) (h99 : s ≤ 99) :
    (twoDigits s).length = 2 := by
  rw [twoDigits, if_neg (by omega)]
  apply padZeros_length
  apply natChars_length_le _ 2 (by omega) (by norm_num)

theorem nb_vars_to_variables_length_le (nv : NbVars) (h0 : 0 ≤ nv.2.2.2.2)
    (h99 : nv.2.2.2.2 ≤ 99) : (nb_vars_to_variables nv).length ≤ 7 := by
  have htd := twoDigits_length h0 h99
  rw [nb_vars_to_variables]
  simp only [List.length_append]
  split_ifs <;> simp [htd]

theorem elemWF_get {el : Elem} {nv : ℕ × ℕ × ℕ × ℕ × ℕ} {npts : ℕ}
    (h : elemWF el nv npts) (g : Grp) :
    (el.get g).length = nvCount nv g ∧ ∀ a ∈ el.get g, a.length = npts := by
  obtain ⟨h1, h2, h3, h4, h5⟩ := h
  cases g <;> assumption

theorem elemRound_eight {el : Elem} (h : elemF64 el) : elemRound 8 el = el := by
  obtain ⟨h1, h2, h3, h4, h5⟩ := h
  have hround : ∀ (l : List (List ℚ)), (∀ a ∈ l, ∀ v ∈ a, isF64 v) →
      l.map (List.map (roundW 8)) = l := by
    intro l hl
    have h1l : ∀ a ∈ l, a.map (roundW 8) = a := by
      intro a ha
      have hv : ∀ v ∈ a, roundW 8 v = id v := fun v hv => by
        rw [roundW, if_neg (by norm_num)]
        exact hl a ha v hv
      rw [List.map_congr_left hv, List.map_id]
    calc l.map (List.map (roundW 8)) = l.map id :=
          List.map_congr_left h1l
      _ = l := List.map_id l
  rw [elemRound, hround _ h1, hround _ h2, hround _ h3, hround _ h4,
    hround _ h5]

/-- A successful `writenek` call, with the file content laid out as header,
endian tag, element map, the five payload groups, and the 3-D trailer. -/
theorem writenek_eval (d : HexaData)
    (hw : d.wdsz = 4 ∨ d.wdsz = 8)
    (hidxs : ∀ z ∈ d.elmap, ∃ idx, pyIdx d.elem.length (z - 1) = some idx) :
    writenek d =
      { ret := some 0,
        content := (((headerBytes132 (writerHeader d)).map Char.toNat ++
            emitEtag d.endian) ++ (d.elmap.map (encI32 d.endian)).join) ++
          (((writePairs d .pos (grpPairs .pos d.elmap (d.varCount .pos))).1 ++
            ((writePairs d .vel (grpPairs .vel d.elmap (d.varCount .vel))).1 ++
             ((writePairs d .pres
                 (grpPairs .pres d.elmap (d.varCount .pres))).1 ++
              ((writePairs d .temp
                  (grpPairs .temp d.elmap (d.varCount .temp))).1 ++
               (writePairs d .scal
                  (grpPairs .scal d.elmap (d.varCount .scal))).1)))) ++
            (if d.ndim = 3 then trailerW d else ([], true)).1),
        closed := true } := by
  have hmk : mkHeader d.wdsz ((d.lr1.1 : ℤ), (d.lr1.2.1 : ℤ), (d.lr1.2.2 : ℤ))
      (d.nel : ℤ) (d.nel : ℤ) d.time d.istep 0 1 none
      (some ((d.var.1 : ℤ), (d.var.2.1 : ℤ), (d.var.2.2.1 : ℤ),
        (d.var.2.2.2.1 : ℤ), (d.var.2.2.2.2 : ℤ))) =
      .ok (writerHeader d) := rfl
  have hs : ∀ g, (writePairs d g (grpPairs g d.elmap (d.varCount g))).2 =
      true := by
    intro g
    apply writePairs_sound
    rintro ⟨iel, i⟩ hp
    exact hidxs iel ((mem_grpPairs g d.elmap (d.varCount g) iel i).mp hp).1
  have ht2 : (if d.ndim = 3 then trailerW d
      else (([], true) : List ℕ × Bool)).2 = true := by
    split_ifs
    · have hts : ∀ g, (trailerPairs d g
          (pairsElemOuter d.elmap (d.varCount g))).2 = true := by
        intro g
        apply trailerPairs_sound
        rintro ⟨iel, i⟩ hp
        exact hidxs iel
          ((mem_pairsElemOuter d.elmap (d.varCount g) iel i).mp hp).1
      rw [trailerW, seqW, if_pos (hts .pos), seqW, if_pos (hts .vel), seqW,
        if_pos (hts .pres), seqW, if_pos (hts .temp)]
      exact hts .scal
    · rfl
  have hpay : payloadW d =
      ((writePairs d .pos (grpPairs .pos d.elmap (d.varCount .pos))).1 ++
        ((writePairs d .vel (grpPairs .vel d.elmap (d.varCount .vel))).1 ++
         ((writePairs d .pres (grpPairs .pres d.elmap (d.varCount .pres))).1 ++
          ((writePairs d .temp (grpPairs .temp d.elmap (d.varCount .temp))).1 ++
           (writePairs d .scal
             (grpPairs .scal d.elmap (d.varCount .scal))).1))),
        true) := by
    rw [payloadW, seqW, if_pos (hs .pos), seqW, if_pos (hs .vel), seqW,
      if_pos (hs .pres), seqW, if_pos (hs .temp)]
    dsimp only []
    rw [hs .scal]
  rw [writenek, hmk]
  dsimp only []
  rw [if_pos hw, hpay, seqW, if_pos rfl]
  dsimp only []
  rw [ht2, if_pos rfl]

set_option maxHeartbeats 4000000 in
/-- The full round-trip: on a well-formed container the reader accepts the
writer's file, closes it, and reproduces the container with every array
narrowed once through the declared word size and the time rounded through its
`%20.13E` rendering. -/
theorem readnek_writenek (d : HexaData) (hwf : WF d) :
    readnek (writenek d).content =
      { res := .ok { d with time := roundF64 (sciRound13 d.time),
                            elem := d.elem.map (elemRound d.wdsz) },
        closed := true } := by
  obtain ⟨hw, hl1, hl2, hl3, hnd, hnel, hstep, htime, hvg, hvv, hvp, hvt,
    hvs, hnz, hml, hmb, hcover, helen, hsh⟩ := hwf
  have hidxs : ∀ z ∈ d.elmap, ∃ idx, pyIdx d.elem.length (z - 1) = some idx := by
    intro z hz
    obtain ⟨hz1, hz2⟩ := hmb z hz
    have hcond : 0 ≤ z - 1 ∧ z - 1 < (d.elem.length : ℤ) := by
      rw [helen]; omega
    exact ⟨(z - 1).toNat, by rw [pyIdx, if_pos hcond]⟩
  have hWeval := writenek_eval d hw hidxs
  set C := (writenek d).content with hCdef
  have hcontent : C =
      (headerBytes132 (writerHeader d)).map Char.toNat ++
        (emitEtag d.endian ++
         ((d.elmap.map (encI32 d.endian)).join ++
          ((writePairs d .pos (grpPairs .pos d.elmap d.var.1)).1 ++
           ((writePairs d .vel (grpPairs .vel d.elmap d.var.2.1)).1 ++
            ((writePairs d .pres (grpPairs .pres d.elmap d.var.2.2.1)).1 ++
             ((writePairs d .temp
                 (grpPairs .temp d.elmap d.var.2.2.2.1)).1 ++
              ((writePairs d .scal
                  (grpPairs .scal d.elmap d.var.2.2.2.2)).1 ++
               (if d.ndim = 3 then trailerW d else ([], true)).1))))))) := by
    rw [hCdef, hWeval]
    simp only [List.append_assoc]
    rfl
  set hdrB := (headerBytes132 (writerHeader d)).map Char.toNat with hBdef
  set etag := emitEtag d.endian with hEdef
  set emap := (d.elmap.map (encI32 d.endian)).join with hMdef
  set B0 := (writePairs d .pos (grpPairs .pos d.elmap d.var.1)).1 with hB0
  set B1 := (writePairs d .vel (grpPairs .vel d.elmap d.var.2.1)).1 with hB1
  set B2 := (writePairs d .pres (grpPairs .pres d.elmap d.var.2.2.1)).1
    with hB2
  set B3 := (writePairs d .temp (grpPairs .temp d.elmap d.var.2.2.2.1)).1
    with hB3
  set B4 := (writePairs d .scal (grpPairs .scal d.elmap d.var.2.2.2.2)).1
    with hB4
  set X := (if d.ndim = 3 then trailerW d else (([], true) : List ℕ × Bool)).1
    with hX
  -- header facts
  have hvars48 : (writerHeader d).vars.length ≤ 48 := by
    refine le_trans (nb_vars_to_variables_length_le _ ?_ ?_) (by norm_num)
    · show (0 : ℤ) ≤ (d.var.2.2.2.2 : ℤ)
      positivity
    · show (d.var.2.2.2.2 : ℤ) ≤ 99
      exact_mod_cast hvs
  have hdrBlen132 : (headerBytes132 (writerHeader d)).length = 132 := by
    apply headerBytes132_length
    · show 0 ≤ d.wdsz ∧ d.wdsz ≤ 9
      rcases hw with h | h <;> rw [h] <;> norm_num
    · show -10 < (d.lr1.1 : ℤ) ∧ (d.lr1.1 : ℤ) < 100
      omega
    · show -10 < (d.lr1.2.1 : ℤ) ∧ (d.lr1.2.1 : ℤ) < 100
      omega
    · show -10 < (d.lr1.2.2 : ℤ) ∧ (d.lr1.2.2 : ℤ) < 100
      omega
    · show -(10 ^ 9) < (d.nel : ℤ) ∧ (d.nel : ℤ) < 10 ^ 10
      omega
    · show -(10 ^ 9) < (d.nel : ℤ) ∧ (d.nel : ℤ) < 10 ^ 10
      omega
    · exact htime
    · exact hstep
    · show -(10 ^ 5) < (0 : ℤ) ∧ (0 : ℤ) < 10 ^ 6
      norm_num
    · show -(10 ^ 5) < (1 : ℤ) ∧ (1 : ℤ) < 10 ^ 6
      norm_num
    · exact hvars48
  have hdrBlenN : hdrB.length = 132 := by
    rw [hBdef, List.length_map, hdrBlen132]
  have hetlen : etag.length = 4 := by
    rw [hEdef, emitEtag, encBytes_length]
  have hemlen : emap.length = 4 * d.nel := by
    rw [hMdef, elmapBytes_length, hml]
  -- content splits
  have hC132t : C.take 132 = hdrB := by
    rw [hcontent, ← hdrBlenN, List.take_left]
  have hC132d : C.drop 132 =
      etag ++ (emap ++ (B0 ++ (B1 ++ (B2 ++ (B3 ++ (B4 ++ X)))))) := by
    rw [hcontent, ← hdrBlenN, List.drop_left]
  have hCet : (C.drop 132).take 4 = etag := by
    rw [hC132d, ← hetlen, List.take_left]
  have hCed : (C.drop 132).drop 4 =
      emap ++ (B0 ++ (B1 ++ (B2 ++ (B3 ++ (B4 ++ X))))) := by
    rw [hC132d, ← hetlen, List.drop_left]
  have hCmt : ((C.drop 132).drop 4).take (4 * d.nel) = emap := by
    rw [hCed, ← hemlen, List.take_left]
  have hCmd : ((C.drop 132).drop 4).drop (4 * d.nel) =
      B0 ++ (B1 ++ (B2 ++ (B3 ++ (B4 ++ X)))) := by
    rw [hCed, ← hemlen, List.drop_left]
  have hs1 : ¬ (C.drop 132).length < 4 := by
    rw [hC132d, List.length_append, hetlen]
    omega
  have hs3 : ¬ ((C.drop 132).drop 4).length < 4 * d.nel := by
    rw [hCed, List.length_append, hemlen]
    omega
  -- decoded pieces
  have hs2 : detectEndian ((C.drop 132).take 4) = .ok d.endian := by
    rw [hCet, hEdef]
    exact detectEndian_emitEtag d.endian
  have hsm : decI32s d.endian d.nel (((C.drop 132).drop 4).take (4 * d.nel)) =
      d.elmap := by
    rw [hCmt, hMdef, ← hml]
    have := decI32s_join d.endian d.elmap
      (fun z hz => by
        obtain ⟨h1, h2⟩ := hmb z hz
        constructor <;> omega) []
    rw [List.append_nil] at this
    exact this
  -- the parsed header
  have hvne : (writerHeader d).vars ≠ [] := by
    show nb_vars_to_variables _ ≠ []
    apply nb_vars_to_variables_ne_nil
    show (0 : ℤ) < (d.var.1 : ℤ) ∨ (0 : ℤ) < (d.var.2.1 : ℤ) ∨
      (0 : ℤ) < (d.var.2.2.1 : ℤ) ∨ (0 : ℤ) < (d.var.2.2.2.1 : ℤ) ∨
      (0 : ℤ) < (d.var.2.2.2.2 : ℤ)
    omega
  have hvws : ∀ c ∈ (writerHeader d).vars, isPyWS c = false := by
    apply nb_vars_to_variables_nonws
    show (0 : ℤ) ≤ (d.var.2.2.2.2 : ℤ)
    positivity
  obtain ⟨c, v, hcv⟩ := List.exists_cons_of_ne_nil hvne
  have hndnd : (2 + if (d.lr1.2.2 : ℤ) > 1 then 1 else 0 : ℤ) = d.ndim := by
    rw [hnd]
    split_ifs with h1 h2 h3 <;> omega
  set hdr2 : Header :=
    { wdsz := d.wdsz,
      orders := ((d.lr1.1 : ℤ), (d.lr1.2.1 : ℤ), (d.lr1.2.2 : ℤ)),
      nb_elems := (d.nel : ℤ), nb_elems_file := (d.nel : ℤ),
      time := roundF64 (sciRound13 d.time), istep := d.istep, fid := 0,
      nb_files := 1, vars := c :: v,
      realtype := if d.wdsz = 4 then some 'f'
        else if d.wdsz = 8 then some 'd' else none,
      nb_pts_elem := (d.lr1.1 : ℤ) * (d.lr1.2.1 : ℤ) * (d.lr1.2.2 : ℤ),
      nb_dims := 2 + (if (d.lr1.2.2 : ℤ) > 1 then 1 else 0),
      nb_vars := variables_to_nb_vars (c :: v)
        (2 + (if (d.lr1.2.2 : ℤ) > 1 then 1 else 0)) } with hh2
  have hok : mkHeader (writerHeader d).wdsz (writerHeader d).orders
      (writerHeader d).nb_elems (writerHeader d).nb_elems_file
      (roundF64 (sciRound13 (writerHeader d).time)) (writerHeader d).istep
      (writerHeader d).fid (writerHeader d).nb_files
      (some (writerHeader d).vars) none = .ok hdr2 := by
    rw [show (writerHeader d).vars = c :: v from hcv]
    rfl
  have hrd : readHeaderStr (headerBytes132 (writerHeader d)) = .ok hdr2 := by
    rw [readHeaderStr_headerBytes132 (writerHeader d) hvne hvws, hok]
    rfl
  have hs0 : readHeaderStr ((C.take 132).map Char.ofNat) = .ok hdr2 := by
    rw [hC132t, hBdef, char_roundtrip_list]
    exact hrd
  -- header-derived scalars
  have hnbv : variables_to_nb_vars (c :: v)
      (2 + if (d.lr1.2.2 : ℤ) > 1 then 1 else 0) =
      some ((d.var.1 : ℤ), (d.var.2.1 : ℤ), (d.var.2.2.1 : ℤ),
        (d.var.2.2.2.1 : ℤ), (d.var.2.2.2.2 : ℤ)) := by
    rw [← hcv]
    show variables_to_nb_vars
      (nb_vars_to_variables ((d.var.1 : ℤ), (d.var.2.1 : ℤ),
        (d.var.2.2.1 : ℤ), (d.var.2.2.2.1 : ℤ), (d.var.2.2.2.2 : ℤ))) _ = _
    apply nb_vars_roundtrip
    · rw [hndnd, hnd]
      split_ifs <;> norm_num
    · rw [hndnd]; exact hvg
    · rw [hndnd]; exact hvv
    · show (d.var.2.2.1 : ℤ) = 0 ∨ (d.var.2.2.1 : ℤ) = 1
      omega
    · show (d.var.2.2.2.1 : ℤ) = 0 ∨ (d.var.2.2.2.1 : ℤ) = 1
      omega
    · show (0 : ℤ) ≤ (d.var.2.2.2.2 : ℤ)
      positivity
    · show (d.var.2.2.2.2 : ℤ) ≤ 99
      exact_mod_cast hvs
    · show ¬((d.var.1 : ℤ) = 0 ∧ (d.var.2.1 : ℤ) = 0 ∧
        (d.var.2.2.1 : ℤ) = 0 ∧ (d.var.2.2.2.1 : ℤ) = 0 ∧
        (d.var.2.2.2.2 : ℤ) = 0)
      omega
  have hfe : ((d.nel : ℤ)).toNat = d.nel := by omega
  have hfo1 : ((d.lr1.1 : ℤ)).toNat = d.lr1.1 := by omega
  have hfo2 : ((d.lr1.2.1 : ℤ)).toNat = d.lr1.2.1 := by omega
  have hfo3 : ((d.lr1.2.2 : ℤ)).toNat = d.lr1.2.2 := by omega
  have hfnp : ((d.lr1.1 : ℤ) * (d.lr1.2.1 : ℤ) * (d.lr1.2.2 : ℤ)).toNat =
      d.npts := by
    rw [show (d.lr1.1 : ℤ) * (d.lr1.2.1 : ℤ) * (d.lr1.2.2 : ℤ) =
      ((d.lr1.1 * d.lr1.2.1 * d.lr1.2.2 : ℕ) : ℤ) by push_cast; ring]
    rw [HexaData.npts]
    omega
  have hft1 : ((d.var.1 : ℤ)).toNat = d.var.1 := by omega
  have hft2 : ((d.var.2.1 : ℤ)).toNat = d.var.2.1 := by omega
  have hft3 : ((d.var.2.2.1 : ℤ)).toNat = d.var.2.2.1 := by omega
  have hft4 : ((d.var.2.2.2.1 : ℤ)).toNat = d.var.2.2.2.1 := by omega
  have hft5 : ((d.var.2.2.2.2 : ℤ)).toNat = d.var.2.2.2.2 := by omega
  -- reduce the reader
  rw [readnek, hs0]
  dsimp only []
  rw [if_neg hs1, hs2]
  dsimp only []
  rw [hfe, if_neg hs3, hsm, hnbv]
  dsimp only []
  rw [hfnp, hfo1, hfo2, hfo3, hft1, hft2, hft3, hft4, hft5, hCmd]
  set D0 : HexaData :=
    { ndim := 2 + if (d.lr1.2.2 : ℤ) > 1 then 1 else 0, nel := d.nel,
      lr1 := (d.lr1.1, d.lr1.2.1, d.lr1.2.2),
      var := (d.var.1, d.var.2.1, d.var.2.2.1, d.var.2.2.2.1, d.var.2.2.2.2),
      time := roundF64 (sciRound13 d.time), istep := d.istep, wdsz := d.wdsz,
      endian := d.endian, elmap := d.elmap,
      elem := List.replicate d.nel
        (zeroElem (d.var.1, d.var.2.1, d.var.2.2.1, d.var.2.2.2.1,
          d.var.2.2.2.2) d.npts) } with hD0
  have hD0len : D0.elem.length = d.elem.length := by
    show (List.replicate d.nel _).length = d.elem.length
    rw [List.length_replicate, helen]
  have hPstage : ∀ (g : Grp) (acc : HexaData),
      (∀ j g1, groupLen acc j g1 = groupLen D0 j g1) →
      ∀ p ∈ grpPairs g d.elmap (d.varCount g),
        ∃ idx, pyIdx d.elem.length (p.1 - 1) = some idx ∧
          (slot d idx g p.2).length = d.npts ∧ p.2 < groupLen acc idx g := by
    intro g acc hgl
    rintro ⟨iel, i⟩ hp
    obtain ⟨hmem, hicnt⟩ := (mem_grpPairs g d.elmap (d.varCount g) iel i).mp hp
    obtain ⟨hz1, hz2⟩ := hmb iel hmem
    have hjlt : (iel - 1).toNat < d.elem.length := by rw [helen]; omega
    have hcond : 0 ≤ iel - 1 ∧ iel - 1 < (d.elem.length : ℤ) := by
      rw [helen]; omega
    have hpy : pyIdx d.elem.length (iel - 1) = some (iel - 1).toNat := by
      rw [pyIdx, if_pos hcond]
    refine ⟨(iel - 1).toNat, hpy, ?_, ?_⟩
    · rw [slot, List.getD_eq_getElem _ _ hjlt]
      obtain ⟨hglen, harr⟩ := elemWF_get (hsh _ (List.getElem_mem _)) g
      have hlt2 : i < ((d.elem[(iel - 1).toNat]).get g).length := by
        rw [hglen]
        exact hicnt
      rw [List.getD_eq_getElem _ _ hlt2]
      exact harr _ (List.getElem_mem _)
    · rw [hgl, groupLen_replicate_zero D0
        (d.var.1, d.var.2.1, d.var.2.2.1, d.var.2.2.2.1, d.var.2.2.2.2)
        d.npts d.nel rfl ((iel - 1).toNat) (by omega) g]
      exact hicnt
  obtain ⟨-, E1, hp1, hL1, hG1, hd1a, hd1b, hd1c, hd1d, hd1e, hd1f, hd1g,
    hd1h, hd1i, hCv1, hNt1⟩ :=
    readPairs_writePairs d .pos d.npts hw (grpPairs .pos d.elmap d.var.1) D0
      (B1 ++ (B2 ++ (B3 ++ (B4 ++ X)))) hD0len
      (hPstage .pos D0 (fun j g1 => rfl))
  rw [← hB0] at hp1
  rw [hp1]
  dsimp only []
  obtain ⟨-, E2, hp2, hL2, hG2, hd2a, hd2b, hd2c, hd2d, hd2e, hd2f, hd2g,
    hd2h, hd2i, hCv2, hNt2⟩ :=
    readPairs_writePairs d .vel d.npts hw (grpPairs .vel d.elmap d.var.2.1) E1
      (B2 ++ (B3 ++ (B4 ++ X))) (hL1.trans hD0len) (hPstage .vel E1 hG1)
  rw [← hB1] at hp2
  rw [hp2]
  dsimp only []
  have hG2D : ∀ j g1, groupLen E2 j g1 = groupLen D0 j g1 :=
    fun j g1 => (hG2 j g1).trans (hG1 j g1)
  obtain ⟨-, E3, hp3, hL3, hG3, hd3a, hd3b, hd3c, hd3d, hd3e, hd3f, hd3g,
    hd3h, hd3i, hCv3, hNt3⟩ :=
    readPairs_writePairs d .pres d.npts hw
      (grpPairs .pres d.elmap d.var.2.2.1) E2 (B3 ++ (B4 ++ X))
      (hL2.trans (hL1.trans hD0len)) (hPstage .pres E2 hG2D)
  rw [← hB2] at hp3
  rw [hp3]
  dsimp only []
  have hG3D : ∀ j g1, groupLen E3 j g1 = groupLen D0 j g1 :=
    fun j g1 => (hG3 j g1).trans (hG2D j g1)
  obtain ⟨-, E4, hp4, hL4, hG4, hd4a, hd4b, hd4c, hd4d, hd4e, hd4f, hd4g,
    hd4h, hd4i, hCv4, hNt4⟩ :=
    readPairs_writePairs d .temp d.npts hw
      (grpPairs .temp d.elmap d.var.2.2.2.1) E3 (B4 ++ X)
      (hL3.trans (hL2.trans (hL1.trans hD0len))) (hPstage .temp E3 hG3D)
  rw [← hB3] at hp4
  rw [hp4]
  dsimp only []
  have hG4D : ∀ j g1, groupLen E4 j g1 = groupLen D0 j g1 :=
    fun j g1 => (hG4 j g1).trans (hG3D j g1)
  obtain ⟨-, E5, hp5, hL5, hG5, hd5a, hd5b, hd5c, hd5d, hd5e, hd5f, hd5g,
    hd5h, hd5i, hCv5, hNt5⟩ :=
    readPairs_writePairs d .scal d.npts hw
      (grpPairs .scal d.elmap d.var.2.2.2.2) E4 X
      (hL4.trans (hL3.trans (hL2.trans (hL1.trans hD0len))))
      (hPstage .scal E4 hG4D)
  rw [← hB4] at hp5
  rw [hp5]
  dsimp only []
  have hG5D : ∀ j g1, groupLen E5 j g1 = groupLen D0 j g1 :=
    fun j g1 => (hG5 j g1).trans (hG4D j g1)
  -- the populated container is the narrowed source container
  have hncg : ∀ (g1 g2 : Grp) (P : List (ℤ × ℕ)) (j i : ℕ), g1 ≠ g2 →
      ¬ covered d g2 P j g1 i := by
    rintro g1 g2 P j i hne ⟨h, -⟩
    exact hne h
  have hslot : ∀ (g : Grp) (j i : ℕ), j < d.nel → i < d.varCount g →
      slot E5 j g i = (slot d j g i).map (roundW d.wdsz) := by
    intro g j i hjnel hicnt
    have hpyj : pyIdx d.elem.length ((j : ℤ) + 1 - 1) = some j := by
      have h1 : ((j : ℤ) + 1) - 1 = (j : ℤ) := by ring
      have hcond : 0 ≤ (j : ℤ) ∧ (j : ℤ) < (d.elem.length : ℤ) := by
        rw [helen]; omega
      rw [h1, pyIdx, if_pos hcond]
      congr 1
    have hmemj : ((j : ℤ) + 1) ∈ d.elmap := hcover j hjnel
    cases g with
    | pos =>
      rw [hNt5 j .pos i (hncg _ _ _ _ _ (by decide)),
        hNt4 j .pos i (hncg _ _ _ _ _ (by decide)),
        hNt3 j .pos i (hncg _ _ _ _ _ (by decide)),
        hNt2 j .pos i (hncg _ _ _ _ _ (by decide))]
      exact hCv1 j .pos i
        ⟨rfl, (j : ℤ) + 1, (mem_grpPairs _ _ _ _ _).mpr ⟨hmemj, hicnt⟩, hpyj⟩
    | vel =>
      rw [hNt5 j .vel i (hncg _ _ _ _ _ (by decide)),
        hNt4 j .vel i (hncg _ _ _ _ _ (by decide)),
        hNt3 j .vel i (hncg _ _ _ _ _ (by decide))]
      exact hCv2 j .vel i
        ⟨rfl, (j : ℤ) + 1, (mem_grpPairs _ _ _ _ _).mpr ⟨hmemj, hicnt⟩, hpyj⟩
    | pres =>
      rw [hNt5 j .pres i (hncg _ _ _ _ _ (by decide)),
        hNt4 j .pres i (hncg _ _ _ _ _ (by decide))]
      exact hCv3 j .pres i
        ⟨rfl, (j : ℤ) + 1, (mem_grpPairs _ _ _ _ _).mpr ⟨hmemj, hicnt⟩, hpyj⟩
    | temp =>
      rw [hNt5 j .temp i (hncg _ _ _ _ _ (by decide))]
      exact hCv4 j .temp i
        ⟨rfl, (j : ℤ) + 1, (mem_grpPairs _ _ _ _ _).mpr ⟨hmemj, hicnt⟩, hpyj⟩
    | scal =>
      exact hCv5 j .scal i
        ⟨rfl, (j : ℤ) + 1, (mem_grpPairs _ _ _ _ _).mpr ⟨hmemj, hicnt⟩, hpyj⟩
  have hE5elem : E5.elem = d.elem.map (elemRound d.wdsz) := by
    have hE5len : E5.elem.length = d.nel := by
      rw [hL5, hL4, hL3, hL2, hL1]
      show (List.replicate d.nel _).length = d.nel
      rw [List.length_replicate]
    apply List.ext_getElem
    · rw [hE5len, List.length_map, helen]
    · intro j hj1 hj2
      have hjd : j < d.elem.length := by
        rw [List.length_map] at hj2
        exact hj2
      have hjnel : j < d.nel := by rw [← helen]; exact hjd
      rw [List.getElem_map]
      apply Elem.eq_of_get
      intro g
      obtain ⟨hglen, harr⟩ :=
        elemWF_get (hsh (d.elem[j]) (List.getElem_mem hjd)) g
      have hgetj : E5.elem.getD j emptyElem = E5.elem[j] :=
        List.getD_eq_getElem _ _ hj1
      have hlenface : (E5.elem[j].get g).length = groupLen E5 j g := by
        rw [groupLen, hgetj]
      have hlenD0 : groupLen E5 j g = nvCount
          (d.var.1, d.var.2.1, d.var.2.2.1, d.var.2.2.2.1, d.var.2.2.2.2)
          g := by
        rw [hG5D, groupLen_replicate_zero D0
          (d.var.1, d.var.2.1, d.var.2.2.1, d.var.2.2.2.1, d.var.2.2.2.2)
          d.npts d.nel rfl j hjnel g]
      apply List.ext_getElem
      · rw [elemRound_get, List.length_map, hlenface, hlenD0, hglen]
      · intro i hi1 hi2
        have hicnt : i < d.varCount g := by
          rw [hlenface, hlenD0] at hi1
          exact hi1
        have hslotL : slot E5 j g i = (E5.elem[j].get g)[i] := by
          rw [slot, hgetj, List.getD_eq_getElem _ _ hi1]
        have higlen : i < ((d.elem[j]).get g).length := by
          rw [hglen]
          cases g <;> exact hicnt
        have hgetjd : d.elem.getD j emptyElem = d.elem[j] :=
          List.getD_eq_getElem _ _ hjd
        have hslotR : slot d j g i = (d.elem[j].get g)[i] := by
          rw [slot, hgetjd, List.getD_eq_getElem _ _ higlen]
        rw [← hslotL, hslot g j i hjnel hicnt, hslotR,
          List.getElem_of_eq (elemRound_get d.wdsz (d.elem[j]) g) hi2,
          List.getElem_map]
    -- fields
  have hE5 : E5 =
      { ndim := d.ndim, nel := d.nel, lr1 := d.lr1, var := d.var,
        time := roundF64 (sciRound13 d.time), istep := d.istep,
        wdsz := d.wdsz, endian := d.endian, elmap := d.elmap,
        elem := List.map (elemRound d.wdsz) d.elem } := by
    apply HexaData.eq_of
    · exact (hd5a.trans (hd4a.trans (hd3a.trans (hd2a.trans hd1a)))).trans
        hndnd
    · exact hd5b.trans (hd4b.trans (hd3b.trans (hd2b.trans hd1b)))
    · exact hd5c.trans (hd4c.trans (hd3c.trans (hd2c.trans hd1c)))
    · exact hd5d.trans (hd4d.trans (hd3d.trans (hd2d.trans hd1d)))
    · exact hd5e.trans (hd4e.trans (hd3e.trans (hd2e.trans hd1e)))
    · exact hd5f.trans (hd4f.trans (hd3f.trans (hd2f.trans hd1f)))
    · exact hd5g.trans (hd4g.trans (hd3g.trans (hd2g.trans hd1g)))
    · exact hd5h.trans (hd4h.trans (hd3h.trans (hd2h.trans hd1h)))
    · exact hd5i.trans (hd4i.trans (hd3i.trans (hd2i.trans hd1i)))
    · exact hE5elem
  rw [hE5]

/-- C1 counterexample: for the well-formed double-precision mesh `dCX` (all
values exact binary64), writing and reading back yields a container whose
`time` is `1`, not the original `1 + 2⁻⁵²` — `%20.13E` keeps only 14
significant digits, so even at word size 8 the time metadata is not
preserved exactly. -/
theorem C1_counterexample :
    (readnek (writenek dCX).content).res = .ok { dCX with time := 1 } ∧
    dCX.time ≠ 1 := by
  constructor
  · rw [readnek_writenek dCX (by decide)]
    show Except.ok _ = Except.ok _
    decide
  · decide

/-- C1 (amended): for every well-formed container, writing with `writenek`
and reading back with `readnek` succeeds and reproduces the container with
the element map, step, orders, word size and endianness preserved exactly,
every array mapped through one store/load cycle at the declared word size
(exactly the float32 narrowing when it is 4, the identity on exact binary64
data when it is 8), and the time preserved only up to its `%20.13E`
rendering (14 significant digits) — not always exactly, see the
counterexample. -/
theorem C1_roundtrip (d : HexaData) (hwf : WF d) :
    (readnek (writenek d).content).res =
      .ok { d with time := roundF64 (sciRound13 d.time),
                   elem := d.elem.map (elemRound d.wdsz) } ∧
    (d.wdsz = 8 → (∀ el ∈ d.elem, elemF64 el) →
      (readnek (writenek d).content).res =
        .ok { d with time := roundF64 (sciRound13 d.time) }) := by
  constructor
  · rw [readnek_writenek d hwf]
  · intro h8 hf64
    rw [readnek_writenek d hwf]
    have hmapid : d.elem.map (elemRound d.wdsz) = d.elem := by
      rw [h8]
      have h1 : ∀ el ∈ d.elem, elemRound 8 el = id el := fun el hel =>
        elemRound_eight (hf64 el hel)
      rw [List.map_congr_left h1, List.map_id]
    rw [hmapid]

/-- Closed instance of `C1_roundtrip` at the concrete mesh `dW`. -/
theorem C1_witness :
    (readnek (writenek dW).content).res =
      .ok { dW with time := roundF64 (sciRound13 dW.time),
                    elem := dW.elem.map (elemRound dW.wdsz) } :=
  (C1_roundtrip dW (by decide)).1

/-! ## Theorems for claim C2: payload nesting order -/

/-- The writer emits exactly one serialized array per (element, component)
pair, concatenated in pair-list order. -/
theorem writePairs_bytes (src : HexaData) (g : Grp) :
    ∀ P : List (ℤ × ℕ),
      (∀ p ∈ P, ∃ idx, pyIdx src.elem.length (p.1 - 1) = some idx) →
      (writePairs src g P).1 = (P.map (fun p =>
        encArr src.wdsz src.endian
          (slot src ((pyIdx src.elem.length (p.1 - 1)).getD 0) g p.2))).join := by
  intro P
  induction P with
  | nil => intro _; rfl
  | cons p P ih =>
    intro hP
    obtain ⟨iel, i⟩ := p
    obtain ⟨idx, hidx⟩ := hP (iel, i) (by simp)
    have hstep : writePairs src g ((iel, i) :: P) =
        (encArr src.wdsz src.endian (slot src idx g i) ++
          (writePairs src g P).1, (writePairs src g P).2) := by
      rw [writePairs, hidx]
      rfl
    have hgetd : (pyIdx src.elem.length (iel - 1)).getD 0 = idx := by
      rw [show pyIdx src.elem.length (iel - 1) = some idx from hidx]
      rfl
    rw [hstep, List.map_cons]
    show encArr src.wdsz src.endian (slot src idx g i) ++
        (writePairs src g P).1 =
      encArr src.wdsz src.endian
          (slot src ((pyIdx src.elem.length (iel - 1)).getD 0) g i) ++
        (List.map (fun p => encArr src.wdsz src.endian
          (slot src ((pyIdx src.elem.length (p.1 - 1)).getD 0) g p.2))
          P).join
    rw [hgetd, ih (fun q hq => hP q (by simp [hq]))]

/-- C2: the geometry/velocity/pressure/temperature groups iterate elements
(element-map order) in the outer loop and components in the inner loop; the
scalar group uses the reverse nesting (component-outer); the writer emits one
array per pair in exactly that order; and on the two-element two-scalar mesh
`dC2` the on-disk scalar payload is `(s0,elemA)(s0,elemB)(s1,elemA)(s1,elemB)`
= `[3],[4],[5],[6]`, which the reader consumes in the same order,
reproducing the mesh. -/
theorem C2_ordering :
    (∀ (elmap : List ℤ) (cnt : ℕ),
      grpPairs .pos elmap cnt =
          elmap.bind (fun iel => (List.range cnt).map (fun i => (iel, i))) ∧
        grpPairs .vel elmap cnt =
          elmap.bind (fun iel => (List.range cnt).map (fun i => (iel, i))) ∧
        grpPairs .pres elmap cnt =
          elmap.bind (fun iel => (List.range cnt).map (fun i => (iel, i))) ∧
        grpPairs .temp elmap cnt =
          elmap.bind (fun iel => (List.range cnt).map (fun i => (iel, i)))) ∧
    (∀ (elmap : List ℤ) (cnt : ℕ),
      grpPairs .scal elmap cnt =
        (List.range cnt).bind (fun i => elmap.map (fun iel => (iel, i)))) ∧
    (∀ (src : HexaData) (g : Grp) (P : List (ℤ × ℕ)),
      (∀ p ∈ P, ∃ idx, pyIdx src.elem.length (p.1 - 1) = some idx) →
      (writePairs src g P).1 = (P.map (fun p =>
        encArr src.wdsz src.endian
          (slot src ((pyIdx src.elem.length (p.1 - 1)).getD 0) g
            p.2))).join) ∧
    (writenek dC2).content =
      (headerBytes132 (writerHeader dC2)).map Char.toNat ++
        (emitEtag .little ++ ((encI32 .little 1 ++ encI32 .little 2) ++
          (encArr 8 .little [3] ++ (encArr 8 .little [4] ++
           (encArr 8 .little [5] ++ encArr 8 .little [6]))))) ∧
    (readnek (writenek dC2).content).res = .ok dC2 := by
  refine ⟨fun elmap cnt => ⟨rfl, rfl, rfl, rfl⟩, fun elmap cnt => rfl,
    fun src g P h => writePairs_bytes src g P h, by decide, ?_⟩
  rw [readnek_writenek dC2 (by decide)]
  show Except.ok _ = Except.ok _
  decide

/-- Closed instance of the writer-ordering part of `C2_ordering`: the four
scalar pairs of `dC2` in component-outer order serialize to the four arrays
in exactly that order. -/
theorem C2_witness :
    (writePairs dC2 .scal [((1 : ℤ), 0), (2, 0), (1, 1), (2, 1)]).1 =
      ([((1 : ℤ), 0), (2, 0), (1, 1), (2, 1)].map (fun p =>
        encArr dC2.wdsz dC2.endian
          (slot dC2 ((pyIdx dC2.elem.length (p.1 - 1)).getD 0) .scal
            p.2))).join :=
  C2_ordering.2.2.1 dC2 .scal [((1 : ℤ), 0), (2, 0), (1, 1), (2, 1)]
    (by
      intro p hp
      simp only [List.mem_cons, List.not_mem_nil, or_false] at hp
      rcases hp with rfl | rfl | rfl | rfl
      · exact ⟨0, by decide⟩
      · exact ⟨1, by decide⟩
      · exact ⟨0, by decide⟩
      · exact ⟨1, by decide⟩)

/-- C6 counterexample: a valid header followed by an all-zero endian tag
makes `readnek` take the `return -3` path with the handle still open, and a
word size of 5 makes `writenek` take the `return -2` path with the (already
truncated) handle still open — the claim that every exit path closes the
handle is false. -/
theorem C6_counterexample :
    (readnek ((headerBytes132 hC6).map Char.toNat ++ [0, 0, 0, 0])).res =
      .error .unknownEndian ∧
    (readnek ((headerBytes132 hC6).map Char.toNat ++ [0, 0, 0, 0])).closed =
      false ∧
    (writenek dBad).ret = some (-2) ∧
    (writenek dBad).closed = false := by
  exact ⟨by decide, by decide, by decide, by decide⟩

/-- C6 (amended): the handle is closed exactly on the fully successful
paths — `readnek` closes it iff it returns a container, `writenek` closes it
iff it returns `0`; every early `return` (-2, -3) and every uncaught
exception leaves it open (`readnek`/`writenek` have no `try/finally`). -/
theorem C6_closed_iff :
    (∀ f : List ℕ, (readnek f).closed = true ↔
      ∃ dd, (readnek f).res = .ok dd) ∧
    (∀ d : HexaData, (writenek d).closed = true ↔
      (writenek d).ret = some 0) := by
  constructor
  · intro f
    rw [readnek]
    repeat' split
    all_goals try simp
    all_goals repeat' split
    all_goals simp
  · intro d
    rw [writenek]
    repeat' split
    all_goals try simp
    all_goals repeat' split
    all_goals simp

/-- Reading one group's pairs from its own serialized bytes with the last
byte missing always fails with the truncated-payload error — the shortfall
is detected at `np.frombuffer` on the final array, after which the whole
call aborts. -/
theorem readPairs_truncated (src : HexaData) (g : Grp) (npts : ℕ)
    (hw : src.wdsz = 4 ∨ src.wdsz = 8) (hnp : 1 ≤ npts) :
    ∀ (P : List (ℤ × ℕ)) (acc : HexaData), P ≠ [] →
      (∀ p ∈ P, ∃ idx, pyIdx src.elem.length (p.1 - 1) = some idx ∧
        (slot src idx g p.2).length = npts) →
      acc.elem.length = src.elem.length →
      readPairs src.wdsz src.endian npts g P acc
        ((writePairs src g P).1.dropLast) = .error .truncatedPayload := by
  have hwpos : 1 ≤ src.wdsz.toNat := by
    rcases hw with h | h <;> rw [h] <;> decide
  intro P
  induction P with
  | nil => intro acc h; exact absurd rfl h
  | cons p P ih =>
    intro acc _ hP hacc
    obtain ⟨iel, i⟩ := p
    obtain ⟨idx, hidx, hslen⟩ := hP (iel, i) (by simp)
    dsimp only [] at hidx hslen
    have hPidx : pyIdx acc.elem.length (iel - 1) = some idx := by
      rw [hacc]; exact hidx
    have hencLen : (encArr src.wdsz src.endian (slot src idx g i)).length =
        src.wdsz.toNat * npts := by
      rw [encArr_length _ _ _ hw, hslen]
    have hmul : 1 ≤ src.wdsz.toNat * npts := Nat.mul_le_mul hwpos hnp
    have hstep : writePairs src g ((iel, i) :: P) =
        (encArr src.wdsz src.endian (slot src idx g i) ++
          (writePairs src g P).1, (writePairs src g P).2) := by
      rw [writePairs, hidx]
      rfl
    rw [hstep]
    dsimp only []
    cases P with
    | nil =>
      rw [show (writePairs src g ([] : List (ℤ × ℕ))).1 = [] from rfl,
        List.append_nil]
      have hlt : ((encArr src.wdsz src.endian
          (slot src idx g i)).dropLast).length < src.wdsz.toNat * npts := by
        rw [List.length_dropLast, hencLen]
        omega
      have herr : readArr src.wdsz src.endian npts
          ((encArr src.wdsz src.endian (slot src idx g i)).dropLast) =
          .error .truncatedPayload := by
        rcases hw with h4 | h8
        · rw [h4] at hlt ⊢
          rw [show ((4 : ℤ)).toNat = 4 from rfl] at hlt
          rw [readArr, if_pos rfl, if_neg (by omega)]
        · rw [h8] at hlt ⊢
          rw [show ((8 : ℤ)).toNat = 8 from rfl] at hlt
          rw [readArr, if_neg (by norm_num), if_pos rfl,
            if_neg (by omega)]
      rw [readPairs, hPidx, herr]
    | cons q Q =>
      have htne : (writePairs src g (q :: Q)).1 ≠ [] := by
        obtain ⟨iel2, i2⟩ := q
        obtain ⟨idx2, hidx2, hslen2⟩ := hP (iel2, i2) (by simp)
        dsimp only [] at hidx2 hslen2
        have hstep2 : writePairs src g ((iel2, i2) :: Q) =
            (encArr src.wdsz src.endian (slot src idx2 g i2) ++
              (writePairs src g Q).1, (writePairs src g Q).2) := by
          rw [writePairs, hidx2]
          rfl
        rw [hstep2]
        dsimp only []
        intro hcon
        have hlc := congrArg List.length hcon
        rw [List.length_append, encArr_length _ _ _ hw, hslen2] at hlc
        simp only [List.length_nil] at hlc
        omega
      rw [List.dropLast_append_of_ne_nil _ htne, readPairs, hPidx,
        readArr_encArr src.wdsz hw src.endian npts _ hslen _]
      exact ih (acc.setElemComp idx g i
          ((slot src idx g i).map (roundW src.wdsz))) (by simp)
        (fun q hq => hP q (by simp [hq]))
        (by rw [elem_length_setElemComp, hacc])

/-- C7: feeding a payload stream one byte short of what the declared shapes
require for the final array fails with the truncated-payload error.  In
general, reading any nonempty pair list from its serialized bytes minus the
last byte aborts with that error; end to end, reading back the writer's
output for the mesh `dC7` with the last byte dropped fails the same way (and
leaves the handle open) — the container is never returned, so population is
all-or-nothing. -/
theorem C7_truncation :
    (∀ (src : HexaData) (g : Grp) (npts : ℕ),
      src.wdsz = 4 ∨ src.wdsz = 8 → 1 ≤ npts →
      ∀ (P : List (ℤ × ℕ)) (acc : HexaData), P ≠ [] →
        (∀ p ∈ P, ∃ idx, pyIdx src.elem.length (p.1 - 1) = some idx ∧
          (slot src idx g p.2).length = npts) →
        acc.elem.length = src.elem.length →
        readPairs src.wdsz src.endian npts g P acc
          ((writePairs src g P).1.dropLast) = .error .truncatedPayload) ∧
    (readnek ((writenek dC7).content.dropLast)).res =
      .error .truncatedPayload ∧
    (readnek ((writenek dC7).content.dropLast)).closed = false := by
  exact ⟨fun src g npts hw hnp => readPairs_truncated src g npts hw hnp,
    by decide, by decide⟩

/-- Closed instance of `C7_truncation`: the single scalar array of `dC7`,
serialized and shortened by one byte, fails to read back. -/
theorem C7_witness :
    readPairs dC7.wdsz dC7.endian 1 .scal [((1 : ℤ), 0)] dC7
      ((writePairs dC7 .scal [((1 : ℤ), 0)]).1.dropLast) =
      .error .truncatedPayload :=
  C7_truncation.1 dC7 .scal 1 (Or.inr rfl) (by decide) [((1 : ℤ), 0)] dC7
    (by decide)
    (by
      intro p hp
      simp only [List.mem_cons, List.not_mem_nil, or_false] at hp
      subst hp
      exact ⟨0, by decide, by decide⟩)
    rfl

/-- C8: `readnek` never range-checks element-map entries: on a file whose
element map contains `0` (with two declared elements), the read succeeds,
and the arrays of the on-disk slot with entry `0` are silently stored into
the **last** element of the container (`data.elem[0 - 1]` is Python negative
indexing), while the slot with entry `1` lands in element 0. -/
theorem C8_no_range_validation :
    (readnek fileC8).res = .ok dC8res ∧
    (readnek fileC8).closed = true ∧
    dC8res.elem.getD (dC8res.nel - 1) emptyElem =
      ⟨[], [], [], [], [[21]]⟩ := by
  exact ⟨by decide, by decide, by decide⟩

/-- C10: for every previous file content and every mesh whose word size is
neither 4 nor 8, the call returns `-2` with the destination already
truncated to zero bytes (and the handle left open) — the failed write
destroys the pre-existing content. -/
theorem C10_truncates_before_validation :
    ∀ (prev : List ℕ) (d : HexaData), d.wdsz ≠ 4 → d.wdsz ≠ 8 →
      writenekOnFile prev d =
        { ret := some (-2), content := [], closed := false } := by
  intro _prev d h4 h8
  show writenek d = _
  have hmk : mkHeader d.wdsz ((d.lr1.1 : ℤ), (d.lr1.2.1 : ℤ), (d.lr1.2.2 : ℤ))
      (d.nel : ℤ) (d.nel : ℤ) d.time d.istep 0 1 none
      (some ((d.var.1 : ℤ), (d.var.2.1 : ℤ), (d.var.2.2.1 : ℤ),
        (d.var.2.2.2.1 : ℤ), (d.var.2.2.2.2 : ℤ))) =
      .ok (writerHeader d) := rfl
  rw [writenek, hmk]
  dsimp only []
  rw [if_neg (by rintro (h | h) <;> [exact h4 h; exact h8 h])]

/-- Closed instance of `C10_truncates_before_validation`: word size 5 wipes
a nonempty destination. -/
theorem C10_witness :
    writenekOnFile [7, 7, 7] dBad =
      { ret := some (-2), content := [], closed := false } :=
  C10_truncates_before_validation [7, 7, 7] dBad (by decide) (by decide)

end Pymech
